import Mathlib

/-!
Verification of the napari viewer core (dimensional slicing, axis
reconciliation, and Labels layer editing) against its specification.

The Python source under `napari/components/viewer_model.py` and
`napari/layers/labels/labels.py` is shallowly embedded below.  Machine
floats appearing in the source (cursor coordinates, dims points, range
triples) are modelled as rationals; numpy integer arrays are modelled as
total functions from integer index lists to integers, guarded by an
explicit shape.  `napari/components/dims.py` (the `Dims` class) is not
part of the provided sources; the handful of `Dims` operations the
embedded code calls (`set_point`, `displayed`, `not_displayed`,
`indices`) are modelled from the spec where marked.
-/

/-- An executable floor on the rationals (`Int.ediv` floors for the
positive denominator). -/
def ratFloor (q : ℚ) : ℤ := q.num / (q.den : ℤ)

theorem ratFloor_eq (q : ℚ) : ratFloor q = ⌊q⌋ := Rat.floor_def.symm

/-- An executable ceiling on the rationals. -/
def ratCeil (q : ℚ) : ℤ := -((-q.num) / (q.den : ℤ))

theorem ratCeil_eq (q : ℚ) : ratCeil q = ⌈q⌉ := by
  have hneg : ratFloor (-q) = (-q.num) / (q.den : ℤ) := by
    rw [ratFloor, Rat.neg_num, Rat.neg_den]
  rw [ratCeil, ← hneg, ratFloor_eq, Int.floor_neg, neg_neg]

/-- numpy `np.round`: round half to even (banker's rounding), computed on
the numerator and denominator (the fractional part `r = q - floor q`
compares to `1/2` as `2 * (num - floor * den)` compares to `den`). -/
def npRound (q : ℚ) : ℤ :=
  let f : ℤ := ratFloor q
  let t : ℤ := 2 * (q.num - f * q.den)
  if t < q.den then f
  else if (q.den : ℤ) < t then f + 1
  else if 2 ∣ f then f else f + 1

/-- `npRound` is the floor or the floor plus one, the latter only when
the value exceeds its floor. -/
theorem npRound_cases (q : ℚ) :
    npRound q = ⌊q⌋ ∨ (npRound q = ⌊q⌋ + 1 ∧ (⌊q⌋ : ℚ) < q) := by
  have hfr : ratFloor q = ⌊q⌋ := ratFloor_eq q
  have hden : (0 : ℤ) < q.den := by exact_mod_cast q.den_pos
  have hkey : ∀ hpos : 0 < q.num - ratFloor q * q.den, (⌊q⌋ : ℚ) < q := by
    intro hpos
    have h1 : (⌊q⌋ : ℚ) * q.den < q.num := by
      rw [← hfr]
      have : ((ratFloor q * q.den : ℤ) : ℚ) < ((q.num : ℤ) : ℚ) := by
        exact_mod_cast (by omega : ratFloor q * q.den < q.num)
      push_cast at this ⊢
      linarith
    have hdq : ((q.den : ℚ)) ≠ 0 := by
      have : (0 : ℚ) < q.den := by exact_mod_cast hden
      exact ne_of_gt this
    have h2 : q * (q.den : ℚ) = q.num := by
      nth_rewrite 1 [← Rat.num_div_den q]
      exact div_mul_cancel₀ _ hdq
    have hdenq : (0 : ℚ) < q.den := by exact_mod_cast hden
    nlinarith [h1, h2]
  unfold npRound
  dsimp only
  split_ifs with h1 h2 h3
  · exact Or.inl hfr
  · refine Or.inr ⟨by rw [hfr], hkey ?_⟩
    omega
  · exact Or.inl hfr
  · refine Or.inr ⟨by rw [hfr], hkey ?_⟩
    omega

/-- Python `int(...)` on a float: truncation toward zero. -/
def pyTrunc (q : ℚ) : ℤ := if 0 ≤ q then ratFloor q else ratCeil q

/-- numpy `np.clip(x, lo, hi)` = `minimum(maximum(x, lo), hi)`. -/
def npClip (x lo hi : ℚ) : ℚ := min (max x lo) hi

/-- Python list indexing `l[i]` with wrap-around for negative indices
(total: out-of-range indices fall back to the default). -/
def pyGet (l : List ℚ) (i : ℤ) (d : ℚ) : ℚ :=
  if 0 ≤ i then l.getD i.toNat d
  else l.getD (i + l.length).toNat d

/-- An n-dimensional integer grid index. -/
abbrev GPos := List ℤ

/-- Index is inside the array bounds on every axis. -/
def posInBounds : List ℤ → GPos → Bool
  | [], [] => true
  | s :: rest, c :: q => 0 ≤ c && c < s && posInBounds rest q
  | _, _ => false

/-- All valid indices along one axis of extent `s`. -/
def axisIdxs (s : ℤ) : List ℤ := List.map (fun k : ℕ => (k : ℤ)) (List.range s.toNat)

/-- All valid indices of an array of the given shape, in C order. -/
def allPositions : List ℤ → List GPos
  | [] => [[]]
  | s :: rest => (axisIdxs s).flatMap (fun c => (allPositions rest).map (c :: ·))

/-- Orthogonal grid adjacency: equal except on one coordinate, where the
entries differ by exactly one (4-connectivity in 2D, 6 in 3D, the
cross-shaped default structuring element of `scipy.ndimage.label`). -/
def gridAdj : GPos → GPos → Bool
  | [], [] => false
  | a :: as, b :: bs =>
      (a == b && gridAdj as bs) || ((a + 1 == b || b + 1 == a) && as == bs)
  | _, _ => false

theorem gridAdj_symm (p q : GPos) (h : gridAdj p q = true) : gridAdj q p = true := by
  induction p generalizing q with
  | nil => cases q <;> simp_all [gridAdj]
  | cons a as ih =>
    cases q with
    | nil => simp_all [gridAdj]
    | cons b bs =>
      simp only [gridAdj, Bool.or_eq_true, Bool.and_eq_true, beq_iff_eq] at h ⊢
      rcases h with ⟨h1, h2⟩ | ⟨h1, h2⟩
      · exact Or.inl ⟨h1.symm, ih bs h2⟩
      · exact Or.inr ⟨by omega, h2.symm⟩

/-! ### Connected components by flood expansion

`scipy.ndimage.label` partitions the true cells of a boolean mask into
orthogonally-connected components.  We realise the component of a seed
cell as the fixpoint of a one-step expansion, and prove below that it
coincides with reflexive-transitive reachability through the mask. -/

/-- One expansion step: every universe cell that is masked and either
already collected or orthogonally adjacent to a collected cell. -/
def floodStep (m : GPos → Bool) (univ : List GPos) (cur : List GPos) : List GPos :=
  univ.filter (fun q => m q && cur.any (fun p => p == q || gridAdj p q))

/-- `n`-fold expansion. -/
def floodIter (m : GPos → Bool) (univ : List GPos) : ℕ → List GPos → List GPos
  | 0, cur => cur
  | n + 1, cur => floodStep m univ (floodIter m univ n cur)

/-- The connected component of `src` in the mask `m`: enough expansion
steps to have reached the fixpoint. -/
def reachList (m : GPos → Bool) (univ : List GPos) (src : GPos) : List GPos :=
  floodIter m univ (univ.length + 1) [src]

/-- Decidable reachability through the mask. -/
def reaches (m : GPos → Bool) (univ : List GPos) (src q : GPos) : Bool :=
  (reachList m univ src).contains q

/-- One step of in-mask connectivity: `q` is a masked universe cell
orthogonally adjacent to `p`. -/
def FloodRel (m : GPos → Bool) (univ : List GPos) (p q : GPos) : Prop :=
  q ∈ univ ∧ m q = true ∧ gridAdj p q = true

theorem mem_floodStep {m : GPos → Bool} {univ cur : List GPos} {q : GPos} :
    q ∈ floodStep m univ cur ↔
      q ∈ univ ∧ m q = true ∧ ∃ p ∈ cur, p = q ∨ gridAdj p q = true := by
  simp [floodStep, List.mem_filter, List.any_eq_true, and_assoc]

theorem floodStep_mono {m : GPos → Bool} {univ cur cur' : List GPos}
    (h : ∀ x ∈ cur, x ∈ cur') : ∀ x ∈ floodStep m univ cur, x ∈ floodStep m univ cur' := by
  intro x hx
  rcases mem_floodStep.mp hx with ⟨hu, hm, p, hp, hpq⟩
  exact mem_floodStep.mpr ⟨hu, hm, p, h p hp, hpq⟩

theorem floodStep_congr {m : GPos → Bool} {univ cur cur' : List GPos}
    (h : ∀ x, x ∈ cur ↔ x ∈ cur') :
    ∀ x, x ∈ floodStep m univ cur ↔ x ∈ floodStep m univ cur' :=
  fun x => ⟨floodStep_mono (fun y hy => (h y).mp hy) x,
            floodStep_mono (fun y hy => (h y).mpr hy) x⟩

theorem floodStep_subset_univ {m : GPos → Bool} {univ cur : List GPos} :
    ∀ x ∈ floodStep m univ cur, x ∈ univ :=
  fun _ hx => (mem_floodStep.mp hx).1

theorem floodIter_succ_outer (m : GPos → Bool) (univ : List GPos) (n : ℕ) (cur : List GPos) :
    floodIter m univ (n + 1) cur = floodStep m univ (floodIter m univ n cur) := rfl

theorem floodChain_mono {m : GPos → Bool} {univ : List GPos} {src : GPos}
    (hu : src ∈ univ) (hm : m src = true) (n : ℕ) :
    ∀ x ∈ floodIter m univ n [src], x ∈ floodIter m univ (n + 1) [src] := by
  induction n with
  | zero =>
    intro x hx
    rcases List.mem_singleton.mp hx with rfl
    exact mem_floodStep.mpr ⟨hu, hm, x, List.mem_singleton.mpr rfl, Or.inl rfl⟩
  | succ k ih =>
    rw [floodIter_succ_outer m univ (k + 1), floodIter_succ_outer m univ k]
    exact floodStep_mono ih

theorem floodChain_le {m : GPos → Bool} {univ : List GPos} {src : GPos}
    (hu : src ∈ univ) (hm : m src = true) {a b : ℕ} (hab : a ≤ b) :
    ∀ x ∈ floodIter m univ a [src], x ∈ floodIter m univ b [src] := by
  induction b with
  | zero =>
    have : a = 0 := Nat.le_zero.mp hab
    subst this; exact fun x h => h
  | succ k ih =>
    rcases Nat.lt_or_ge a (k + 1) with h | h
    · intro x hx
      exact floodChain_mono hu hm k x (ih (Nat.lt_succ_iff.mp h) x hx)
    · have : a = k + 1 := le_antisymm hab h
      subst this; exact fun x h => h

theorem floodIter_sound {m : GPos → Bool} {univ : List GPos} {src : GPos} (n : ℕ) :
    ∀ x ∈ floodIter m univ n [src], Relation.ReflTransGen (FloodRel m univ) src x := by
  induction n with
  | zero =>
    intro x hx
    rcases List.mem_singleton.mp hx with rfl
    exact Relation.ReflTransGen.refl
  | succ k ih =>
    intro x hx
    rcases mem_floodStep.mp hx with ⟨hxu, hxm, p, hp, hcase⟩
    rcases hcase with rfl | hadj
    · exact ih p hp
    · exact (ih p hp).tail ⟨hxu, hxm, hadj⟩

theorem flood_exists_fix {m : GPos → Bool} {univ : List GPos} {src : GPos}
    (hu : src ∈ univ) (hm : m src = true) :
    ∃ n ≤ univ.length,
      ∀ x, x ∈ floodIter m univ (n + 1) [src] ↔ x ∈ floodIter m univ (n + 2) [src] := by
  by_contra hcon
  push_neg at hcon
  have hgrow : ∀ n, n ≤ univ.length →
      (floodIter m univ 1 [src]).toFinset.card + n ≤
        (floodIter m univ (n + 1) [src]).toFinset.card := by
    intro n
    induction n with
    | zero => intro _; simp
    | succ k ih =>
      intro hk
      have h1 : k ≤ univ.length := Nat.le_of_succ_le hk
      have hsub : (floodIter m univ (k + 1) [src]).toFinset ⊆
          (floodIter m univ (k + 2) [src]).toFinset := by
        intro x hx
        rw [List.mem_toFinset] at hx ⊢
        exact floodChain_mono hu hm (k + 1) x hx
      have hne : (floodIter m univ (k + 1) [src]).toFinset ≠
          (floodIter m univ (k + 2) [src]).toFinset := by
        obtain ⟨x, hx⟩ := hcon k h1
        intro heq
        have hmem : x ∈ floodIter m univ (k + 1) [src] ↔ x ∈ floodIter m univ (k + 2) [src] := by
          rw [← List.mem_toFinset, heq, List.mem_toFinset]
        rcases hx with ⟨ha, hb⟩ | ⟨ha, hb⟩
        · exact hb (hmem.mp ha)
        · exact ha (hmem.mpr hb)
      have hlt := Finset.card_lt_card (ssubset_of_subset_of_ne hsub hne)
      have := ih h1
      show (floodIter m univ 1 [src]).toFinset.card + (k + 1) ≤
        (floodIter m univ (k + 2) [src]).toFinset.card
      omega
  have hsubu : (floodIter m univ (univ.length + 1) [src]).toFinset ⊆ univ.toFinset := by
    intro x hx
    rw [List.mem_toFinset] at hx ⊢
    exact floodStep_subset_univ x hx
  have hbound : (floodIter m univ (univ.length + 1) [src]).toFinset.card ≤ univ.length :=
    le_trans (Finset.card_le_card hsubu) univ.toFinset_card_le
  have h1card : 1 ≤ (floodIter m univ 1 [src]).toFinset.card := by
    have hsrc : src ∈ floodIter m univ 1 [src] :=
      floodChain_mono hu hm 0 src (List.mem_singleton.mpr rfl)
    exact Finset.card_pos.mpr ⟨src, List.mem_toFinset.mpr hsrc⟩
  have := hgrow univ.length le_rfl
  omega

theorem flood_fix_ge {m : GPos → Bool} {univ : List GPos} {src : GPos} {n0 : ℕ}
    (hfix : ∀ x, x ∈ floodIter m univ (n0 + 1) [src] ↔ x ∈ floodIter m univ (n0 + 2) [src]) :
    ∀ k, n0 + 1 ≤ k → ∀ x, x ∈ floodIter m univ k [src] ↔ x ∈ floodIter m univ (n0 + 1) [src] := by
  intro k
  induction k with
  | zero => intro h; omega
  | succ j ih =>
    intro hj
    rcases Nat.lt_or_ge (n0 + 1) (j + 1) with h | h
    · have hj' : n0 + 1 ≤ j := Nat.lt_succ_iff.mp h
      intro x
      have step1 : x ∈ floodIter m univ (j + 1) [src] ↔
          x ∈ floodStep m univ (floodIter m univ (n0 + 1) [src]) := by
        rw [floodIter_succ_outer]
        exact floodStep_congr (ih hj') x
      have step2 : x ∈ floodStep m univ (floodIter m univ (n0 + 1) [src]) ↔
          x ∈ floodIter m univ (n0 + 2) [src] := Iff.rfl
      exact (step1.trans step2).trans (hfix x).symm
    · have : j + 1 = n0 + 1 := le_antisymm h hj
      rw [this]
      exact fun x => Iff.rfl

theorem reachList_closed {m : GPos → Bool} {univ : List GPos} {src : GPos}
    (hu : src ∈ univ) (hm : m src = true) :
    ∀ x, x ∈ floodStep m univ (reachList m univ src) ↔ x ∈ reachList m univ src := by
  obtain ⟨n0, hn0, hfix⟩ := flood_exists_fix hu hm
  have hA := flood_fix_ge hfix (univ.length + 1) (by omega)
  have hB := flood_fix_ge hfix (univ.length + 2) (by omega)
  intro x
  have : floodStep m univ (reachList m univ src) = floodIter m univ (univ.length + 2) [src] := rfl
  rw [this, reachList]
  exact (hB x).trans (hA x).symm

theorem flood_complete {m : GPos → Bool} {univ : List GPos} {src q : GPos}
    (hu : src ∈ univ) (hm : m src = true)
    (h : Relation.ReflTransGen (FloodRel m univ) src q) : q ∈ reachList m univ src := by
  induction h with
  | refl =>
    exact floodChain_le hu hm (Nat.zero_le _) src (List.mem_singleton.mpr rfl)
  | tail hab hrel ih =>
    rename_i b c
    exact (reachList_closed hu hm c).mp
      (mem_floodStep.mpr ⟨hrel.1, hrel.2.1, b, ih, Or.inr hrel.2.2⟩)

theorem reaches_iff {m : GPos → Bool} {univ : List GPos} {src : GPos}
    (hu : src ∈ univ) (hm : m src = true) (q : GPos) :
    reaches m univ src q = true ↔ Relation.ReflTransGen (FloodRel m univ) src q := by
  unfold reaches
  rw [show (reachList m univ src).contains q = List.elem q (reachList m univ src) from rfl,
    List.elem_iff]
  exact ⟨floodIter_sound (univ.length + 1) q, flood_complete hu hm⟩

theorem floodRel_endpoint {m : GPos → Bool} {univ : List GPos} {a b : GPos}
    (h : Relation.ReflTransGen (FloodRel m univ) a b) :
    b = a ∨ (b ∈ univ ∧ m b = true) := by
  induction h with
  | refl => exact Or.inl rfl
  | tail h1 h2 ih => exact Or.inr ⟨h2.1, h2.2.1⟩

theorem floodRel_rtg_symm {m : GPos → Bool} {univ : List GPos} {a b : GPos}
    (hau : a ∈ univ) (ham : m a = true)
    (h : Relation.ReflTransGen (FloodRel m univ) a b) :
    Relation.ReflTransGen (FloodRel m univ) b a := by
  induction h with
  | refl => exact Relation.ReflTransGen.refl
  | tail h1 hrel ih =>
    rename_i b c
    have hb : b ∈ univ ∧ m b = true := by
      rcases floodRel_endpoint h1 with rfl | hb
      · exact ⟨hau, ham⟩
      · exact hb
    exact Relation.ReflTransGen.trans
      (Relation.ReflTransGen.single ⟨hb.1, hb.2, gridAdj_symm _ _ hrel.2.2⟩) ih

theorem mem_axisIdxs {s c : ℤ} : c ∈ axisIdxs s ↔ 0 ≤ c ∧ c < s := by
  simp only [axisIdxs, List.mem_map, List.mem_range]
  constructor
  · rintro ⟨k, hk, rfl⟩
    omega
  · rintro ⟨h0, hs⟩
    exact ⟨c.toNat, by omega, by omega⟩

theorem mem_allPositions {shape : List ℤ} {p : GPos} :
    p ∈ allPositions shape ↔ posInBounds shape p = true := by
  induction shape generalizing p with
  | nil => cases p <;> simp [allPositions, posInBounds]
  | cons s rest ih =>
    cases p with
    | nil => simp [allPositions, posInBounds, List.mem_flatMap]
    | cons c q =>
      simp only [allPositions, List.mem_flatMap, List.mem_map, posInBounds,
        Bool.and_eq_true, decide_eq_true_eq]
      constructor
      · rintro ⟨c', hc', q', hq', heq⟩
        injection heq with h1 h2
        subst h1; subst h2
        rcases mem_axisIdxs.mp hc' with ⟨h0, hs⟩
        exact ⟨⟨h0, hs⟩, ih.mp hq'⟩
      · rintro ⟨⟨h0, hs⟩, hq⟩
        exact ⟨c, mem_axisIdxs.mpr ⟨h0, hs⟩, q, ih.mpr hq, rfl⟩

/-! ### `Labels.fill` (napari/layers/labels/labels.py, lines 369-413) -/

/-- `matches = labels == old_label`, guarded by the array bounds. -/
def gridMask (shape : List ℤ) (data : GPos → ℤ) (old : ℤ) : GPos → Bool :=
  fun p => posInBounds shape p && (data p == old)

/-- Whether `scipy.ndimage.label` reports exactly one connected component
for the mask (the source's `num_features != 1` test negated): the mask is
nonempty and every masked cell is reachable from the first masked cell. -/
def oneComponentB (m : GPos → Bool) (univ : List GPos) : Bool :=
  match univ.filter m with
  | [] => false
  | c :: rest => (c :: rest).all (fun q => reaches m univ c q)

/-- The cells `Labels.fill` writes: `matches`, narrowed to the connected
component of the clicked cell when `contiguous` holds and the mask has a
number of components other than one.  When the clicked cell is not
masked, `labeled_matches[slice_coord]` is the background label `0`,
carried by no masked cell, so the conjunction empties — hence the
`m src` factor. -/
def fillMask (shape : List ℤ) (data : GPos → ℤ) (src : GPos) (old : ℤ)
    (contiguous : Bool) : GPos → Bool :=
  let m := gridMask shape data old
  let univ := allPositions shape
  if contiguous && !(oneComponentB m univ) then
    fun p => m p && m src && reaches m univ src p
  else m

/-- `labels[matches] = new_label` over the whole volume, i.e. `fill` in the
`n_dimensional or ndim == 2` branch. -/
def fillDataFull (shape : List ℤ) (data : GPos → ℤ) (src : GPos) (old newl : ℤ)
    (contiguous : Bool) : GPos → ℤ :=
  fun p => if fillMask shape data src old contiguous p then newl else data p

/-- A 2D integer image given as a list of rows. -/
def listGrid2 (g : List (List ℤ)) : GPos → ℤ
  | [i, j] => (g.getD i.toNat []).getD j.toNat 0
  | _ => 0

theorem gridMask_src {shape : List ℤ} {data : GPos → ℤ} {src : GPos} {old : ℤ}
    (hin : posInBounds shape src = true) (hold : data src = old) :
    gridMask shape data old src = true := by
  simp [gridMask, hin, hold]

theorem floodRel_mask {shape : List ℤ} {data : GPos → ℤ} {src : GPos} {old : ℤ} {p : GPos}
    (hin : posInBounds shape src = true) (hold : data src = old)
    (h : Relation.ReflTransGen (FloodRel (gridMask shape data old) (allPositions shape)) src p) :
    gridMask shape data old p = true := by
  rcases floodRel_endpoint h with rfl | hb
  · exact gridMask_src hin hold
  · exact hb.2

theorem fillMask_contiguous_char {shape : List ℤ} {data : GPos → ℤ} {src : GPos} {old : ℤ}
    (hin : posInBounds shape src = true) (hold : data src = old) (p : GPos) :
    fillMask shape data src old true p = true ↔
      Relation.ReflTransGen (FloodRel (gridMask shape data old) (allPositions shape)) src p := by
  have hmsrc : gridMask shape data old src = true := gridMask_src hin hold
  have husrc : src ∈ allPositions shape := mem_allPositions.mpr hin
  by_cases hone : oneComponentB (gridMask shape data old) (allPositions shape) = true
  · rw [show fillMask shape data src old true = gridMask shape data old from by
      simp [fillMask, hone]]
    constructor
    · intro hmp
      have hpu : p ∈ allPositions shape := by
        apply mem_allPositions.mpr
        simp only [gridMask, Bool.and_eq_true] at hmp
        exact hmp.1
      rcases hfil : (allPositions shape).filter (gridMask shape data old) with _ | ⟨c, rest⟩
      · rw [oneComponentB, hfil] at hone
        exact absurd hone (by simp)
      · rw [oneComponentB, hfil] at hone
        have hc : c ∈ (allPositions shape).filter (gridMask shape data old) := by
          rw [hfil]; exact List.mem_cons_self c rest
        have hcu : c ∈ allPositions shape := (List.mem_filter.mp hc).1
        have hcm : gridMask shape data old c = true := (List.mem_filter.mp hc).2
        have hpfil : p ∈ (allPositions shape).filter (gridMask shape data old) :=
          List.mem_filter.mpr ⟨hpu, hmp⟩
        have hsfil : src ∈ (allPositions shape).filter (gridMask shape data old) :=
          List.mem_filter.mpr ⟨husrc, hmsrc⟩
        rw [hfil] at hpfil hsfil
        have hall := List.all_eq_true.mp hone
        have hcp := (reaches_iff hcu hcm p).mp (hall p hpfil)
        have hcs := (reaches_iff hcu hcm src).mp (hall src hsfil)
        exact Relation.ReflTransGen.trans (floodRel_rtg_symm hcu hcm hcs) hcp
    · exact floodRel_mask hin hold
  · rw [show fillMask shape data src old true = fun p =>
        gridMask shape data old p && gridMask shape data old src &&
          reaches (gridMask shape data old) (allPositions shape) src p from by
      simp [fillMask, hone]]
    simp only [Bool.and_eq_true]
    constructor
    · rintro ⟨⟨_, _⟩, hr⟩
      exact (reaches_iff husrc hmsrc p).mp hr
    · intro h
      exact ⟨⟨floodRel_mask hin hold h, hmsrc⟩, (reaches_iff husrc hmsrc p).mpr h⟩

theorem fillMask_noncontiguous (shape : List ℤ) (data : GPos → ℤ) (src : GPos) (old : ℤ) :
    fillMask shape data src old false = gridMask shape data old := by
  simp [fillMask]

/-- **C2**: on a Labels layer state whose scope is the whole grid, with the
clicked cell carrying `old_label`, `fill` with `contiguous = True` writes
`new_label` to exactly the orthogonally-connected component of
`old_label`-valued cells containing the clicked cell and leaves every
other cell unchanged; with `contiguous = False` it writes every in-bounds
cell equal to `old_label`.  The two concrete 2D scenarios from the spec
are checked verbatim. -/
theorem claim_C2_fill_connected_component
    (shape : List ℤ) (data : GPos → ℤ) (src : GPos) (old newl : ℤ)
    (hin : posInBounds shape src = true) (hold : data src = old) :
    (∀ p, Relation.ReflTransGen (FloodRel (gridMask shape data old) (allPositions shape)) src p →
        fillDataFull shape data src old newl true p = newl) ∧
    (∀ p, ¬ Relation.ReflTransGen (FloodRel (gridMask shape data old) (allPositions shape)) src p →
        fillDataFull shape data src old newl true p = data p) ∧
    (∀ p, fillDataFull shape data src old newl false p =
        if gridMask shape data old p = true then newl else data p) ∧
    (∀ p ∈ allPositions [2, 3],
        fillDataFull [2, 3] (listGrid2 [[1, 1, 0], [1, 0, 0]]) [0, 0] 1 5 true p =
          listGrid2 [[5, 5, 0], [5, 0, 0]] p) ∧
    (∀ p ∈ allPositions [1, 3],
        fillDataFull [1, 3] (listGrid2 [[1, 0, 1]]) [0, 0] 1 5 true p =
          listGrid2 [[5, 0, 1]] p) := by
  refine ⟨?_, ?_, ?_, by decide, by decide⟩
  · intro p hp
    have := (fillMask_contiguous_char hin hold p).mpr hp
    simp [fillDataFull, this]
  · intro p hp
    have : fillMask shape data src old true p = false := by
      rcases hb : fillMask shape data src old true p with _ | _
      · rfl
      · exact absurd ((fillMask_contiguous_char hin hold p).mp hb) hp
    simp [fillDataFull, this]
  · intro p
    rw [fillDataFull, fillMask_noncontiguous]

/-- Witness for C2: the first concrete scenario, via the theorem. -/
theorem claim_C2_fill_connected_component_witness :
    ((allPositions [2, 3]).all (fun p =>
      fillDataFull [2, 3] (listGrid2 [[1, 1, 0], [1, 0, 0]]) [0, 0] 1 5 true p ==
        listGrid2 [[5, 5, 0], [5, 0, 0]] p)) = true := by
  rw [List.all_eq_true]
  intro p hp
  exact beq_iff_eq.mpr
    ((claim_C2_fill_connected_component [2, 3] (listGrid2 [[1, 1, 0], [1, 0, 0]]) [0, 0] 1 5
      (by decide) (by decide)).2.2.2.1 p hp)

/-! ### Dims state and `ViewerModel._update_layers` (viewer_model.py 816-846) -/

/-- `list(range(n))` as integers. -/
def intRange (n : ℕ) : List ℤ := List.map (fun k : ℕ => (k : ℤ)) (List.range n)

theorem mem_intRange {n : ℕ} {a : ℤ} : a ∈ intRange n ↔ 0 ≤ a ∧ a < n := by
  simp only [intRange, List.mem_map, List.mem_range]
  constructor
  · rintro ⟨k, hk, rfl⟩
    omega
  · rintro ⟨h0, hn⟩
    exact ⟨a.toNat, by omega, by omega⟩

theorem intRange_nodup (n : ℕ) : (intRange n).Nodup :=
  (List.nodup_range n).map (fun a b h => by exact_mod_cast h)

/-- A layer's own `Dims` state: the fields `_update_layers` and the
Labels layer read and write. -/
structure LayerDims where
  ndim : ℕ
  order : List ℤ
  ndisplay : ℕ
  point : List ℚ
  range : List (ℚ × ℚ × ℚ)
  deriving DecidableEq

/-- The viewer's global `Dims` state. -/
structure GlobalDims where
  ndim : ℕ
  order : List ℤ
  ndisplay : ℕ
  point : List ℚ
  deriving DecidableEq

/-- Modelled from the spec: `Dims.displayed` is the last `ndisplay`
entries of `order` (dims.py is not among the provided sources). -/
def displayedAxes (d : LayerDims) : List ℤ := d.order.drop (d.order.length - d.ndisplay)

/-- Modelled from the spec: `Dims.not_displayed` is the rest of `order`. -/
def notDisplayedAxes (d : LayerDims) : List ℤ := d.order.take (d.order.length - d.ndisplay)

/-- Modelled from the spec: `Dims.set_point` clamps the value to the
axis's `[min, max]` range before storing. -/
def clampPoint (r : ℚ × ℚ × ℚ) (x : ℚ) : ℚ := min (max x r.1) r.2.1

/-- Modelled from the spec: the `Dims.order` setter validates that the
argument is a permutation of `range(ndim)` and rejects it otherwise,
leaving the previous order in place. -/
def setOrderD (d : LayerDims) (ord : List ℤ) : LayerDims :=
  if ord.Perm (intRange d.ndim) then { d with order := ord } else d

/-- Modelled from the spec: the `Dims.ndisplay` setter accepts only 2 or
3 and rejects other values. -/
def setNdisplayD (d : LayerDims) (v : ℕ) : LayerDims :=
  if v = 2 ∨ v = 3 then { d with ndisplay := v } else d

/-- Modelled from the spec: `Dims.set_point(axis, value)` stores the
clamped value at `axis` (out-of-range axes are a no-op `List.set`). -/
def setPointD (d : LayerDims) (axis : ℕ) (x : ℚ) : LayerDims :=
  { d with point := d.point.set axis (clampPoint (d.range.getD axis (0, 0, 0)) x) }

/-- The layer order `_update_layers` computes from the global order for a
layer of rank `lndim`: for `offset <= 0`, `list(range(-offset)) +
list(order - offset)`; otherwise the entries `>= offset` of the global
order, each reduced by `offset`. -/
def layerOrderOf (g : GlobalDims) (lndim : ℕ) : List ℤ :=
  let offset : ℤ := (g.ndim : ℤ) - (lndim : ℤ)
  if offset ≤ 0 then intRange (-offset).toNat ++ g.order.map (fun a => a - offset)
  else (g.order.filter (fun a => offset ≤ a)).map (fun a => a - offset)

/-- The iterated `set_point` loop of `_update_layers`, acting on the
point list: positions `0..n-1` receive the clamped pushed values. -/
def setPointsAux (r : List (ℚ × ℚ × ℚ)) (f : ℕ → ℚ) (n : ℕ) (l : List ℚ) : List ℚ :=
  (List.range n).foldl (fun acc a => acc.set a (clampPoint (r.getD a (0, 0, 0)) (f a))) l

/-- `ViewerModel._update_layers` (viewer_model.py 816-846) acting on one
layer's dims: set the derived order, copy the global `ndisplay`, then
push `global point[axis + offset]` through `set_point` for every axis
the layer owns. -/
def updateLayerDims (g : GlobalDims) (d : LayerDims) : LayerDims :=
  (List.range d.ndim).foldl
    (fun dd axis =>
      setPointD dd axis (pyGet g.point ((axis : ℤ) + ((g.ndim : ℤ) - (d.ndim : ℤ))) 0))
    (setNdisplayD (setOrderD d (layerOrderOf g d.ndim)) g.ndisplay)

theorem foldl_setPointD_fields (axs : List ℕ) (f : ℕ → ℚ) (d : LayerDims) :
    (axs.foldl (fun dd a => setPointD dd a (f a)) d) =
      { d with point := (axs.foldl
          (fun acc a => acc.set a (clampPoint (d.range.getD a (0, 0, 0)) (f a))) d.point) } := by
  induction axs generalizing d with
  | nil => rfl
  | cons a as ih =>
    rw [List.foldl_cons, ih]
    rfl

theorem setPointsAux_length (r : List (ℚ × ℚ × ℚ)) (f : ℕ → ℚ) (n : ℕ) (l : List ℚ) :
    (setPointsAux r f n l).length = l.length := by
  induction n with
  | zero => rfl
  | succ k ih =>
    unfold setPointsAux at ih ⊢
    rw [List.range_succ, List.foldl_append, List.foldl_cons, List.foldl_nil,
      List.length_set, ih]

theorem setPointsAux_getElem? (r : List (ℚ × ℚ × ℚ)) (f : ℕ → ℚ) (n : ℕ) (l : List ℚ)
    (i : ℕ) :
    (setPointsAux r f n l)[i]? =
      if i < n ∧ i < l.length then some (clampPoint (r.getD i (0, 0, 0)) (f i))
      else l[i]? := by
  induction n with
  | zero =>
    simp [setPointsAux]
  | succ k ih =>
    have hstep : setPointsAux r f (k + 1) l =
        (setPointsAux r f k l).set k (clampPoint (r.getD k (0, 0, 0)) (f k)) := by
      unfold setPointsAux
      rw [List.range_succ, List.foldl_append, List.foldl_cons, List.foldl_nil]
    rw [hstep]
    by_cases hik : i = k
    · subst hik
      by_cases hl : i < l.length
      · rw [List.getElem?_set_self (by rw [setPointsAux_length]; exact hl)]
        simp [hl]
      · rw [List.getElem?_set]
        have hlen : ¬ i < (setPointsAux r f i l).length := by
          rw [setPointsAux_length]; exact hl
        simp only [if_pos rfl, if_neg hlen]
        rw [ih]
        simp only [Nat.lt_irrefl, false_and, if_neg, not_false_eq_true]
        rw [List.getElem?_eq_none (by omega)]
        simp [hl]
    · rw [List.getElem?_set_ne (by omega), ih]
      have : (i < k ∧ i < l.length) ↔ (i < k + 1 ∧ i < l.length) := by omega
      rw [if_congr this rfl rfl]

theorem setPointsAux_idem (r : List (ℚ × ℚ × ℚ)) (f : ℕ → ℚ) (n : ℕ) (l : List ℚ) :
    setPointsAux r f n (setPointsAux r f n l) = setPointsAux r f n l := by
  apply List.ext_getElem?
  intro i
  rw [setPointsAux_getElem?, setPointsAux_getElem?, setPointsAux_length]
  split_ifs <;> rfl

theorem updateLayerDims_eq (g : GlobalDims) (d : LayerDims) :
    updateLayerDims g d =
      { ndim := d.ndim,
        order := if (layerOrderOf g d.ndim).Perm (intRange d.ndim)
                 then layerOrderOf g d.ndim else d.order,
        ndisplay := if g.ndisplay = 2 ∨ g.ndisplay = 3 then g.ndisplay else d.ndisplay,
        point := setPointsAux d.range
          (fun axis => pyGet g.point ((axis : ℤ) + ((g.ndim : ℤ) - (d.ndim : ℤ))) 0)
          d.ndim d.point,
        range := d.range } := by
  unfold updateLayerDims
  rw [foldl_setPointD_fields]
  unfold setOrderD setNdisplayD setPointsAux
  split_ifs <;> rfl

theorem updateLayerDims_ndim (g : GlobalDims) (d : LayerDims) :
    (updateLayerDims g d).ndim = d.ndim := by
  rw [updateLayerDims_eq]

theorem updateLayerDims_range (g : GlobalDims) (d : LayerDims) :
    (updateLayerDims g d).range = d.range := by
  rw [updateLayerDims_eq]

theorem updateLayerDims_order (g : GlobalDims) (d : LayerDims) :
    (updateLayerDims g d).order =
      if (layerOrderOf g d.ndim).Perm (intRange d.ndim) then layerOrderOf g d.ndim
      else d.order := by
  rw [updateLayerDims_eq]

theorem updateLayerDims_ndisplay (g : GlobalDims) (d : LayerDims) :
    (updateLayerDims g d).ndisplay =
      if g.ndisplay = 2 ∨ g.ndisplay = 3 then g.ndisplay else d.ndisplay := by
  rw [updateLayerDims_eq]

theorem updateLayerDims_point (g : GlobalDims) (d : LayerDims) :
    (updateLayerDims g d).point =
      setPointsAux d.range
        (fun axis => pyGet g.point ((axis : ℤ) + ((g.ndim : ℤ) - (d.ndim : ℤ))) 0)
        d.ndim d.point := by
  rw [updateLayerDims_eq]

/-- **C5**: the axis reconciliation `_update_layers` is idempotent on a
layer's dims: a second run with the same global state reproduces the
state of the first run exactly, so (fields being compared by value before
any notification) it emits no further change events and no re-slice. -/
theorem claim_C5_update_layers_idempotent (g : GlobalDims) (d : LayerDims) :
    updateLayerDims g (updateLayerDims g d) = updateLayerDims g d := by
  rw [updateLayerDims_eq g (updateLayerDims g d)]
  rw [updateLayerDims_ndim, updateLayerDims_range, updateLayerDims_order,
    updateLayerDims_ndisplay, updateLayerDims_point]
  rw [updateLayerDims_eq g d]
  rw [setPointsAux_idem]
  congr 1
  · split_ifs <;> rfl
  · split_ifs <;> rfl

theorem layerOrderOf_perm_of_lt (g : GlobalDims) (lndim : ℕ)
    (hperm : g.order.Perm (intRange g.ndim)) (hlt : lndim < g.ndim) :
    (layerOrderOf g lndim).Perm (intRange lndim) := by
  unfold layerOrderOf
  rw [if_neg (by omega)]
  have hnd : g.order.Nodup := hperm.symm.nodup (intRange_nodup g.ndim)
  have hmapnd : ((g.order.filter (fun a => (g.ndim : ℤ) - (lndim : ℤ) ≤ a)).map
      (fun a => a - ((g.ndim : ℤ) - (lndim : ℤ)))).Nodup :=
    (hnd.filter _).map (fun a b h => by omega)
  apply List.perm_of_nodup_nodup_toFinset_eq hmapnd (intRange_nodup lndim)
  apply Finset.ext
  intro a
  rw [List.mem_toFinset, List.mem_toFinset, List.mem_map, mem_intRange]
  constructor
  · rintro ⟨b, hb, rfl⟩
    rcases List.mem_filter.mp hb with ⟨hbo, hple⟩
    have hble : (g.ndim : ℤ) - (lndim : ℤ) ≤ b := by simpa using hple
    have := mem_intRange.mp (hperm.mem_iff.mp hbo)
    omega
  · rintro ⟨h0, hl⟩
    refine ⟨a + ((g.ndim : ℤ) - (lndim : ℤ)), List.mem_filter.mpr ⟨?_, by simp; omega⟩, by ring⟩
    exact hperm.mem_iff.mpr (mem_intRange.mpr (by omega))

theorem setPointsAux_getD (r : List (ℚ × ℚ × ℚ)) (f : ℕ → ℚ) (n : ℕ) (l : List ℚ)
    (i : ℕ) (hi : i < n) (hil : i < l.length) :
    (setPointsAux r f n l).getD i 0 = clampPoint (r.getD i (0, 0, 0)) (f i) := by
  rw [List.getD_eq_getElem?_getD, setPointsAux_getElem?, if_pos ⟨hi, hil⟩]
  rfl

/-- **C1**: for a layer with `offset = global ndim - layer ndim > 0`,
`_update_layers` sets the layer's order to the subsequence of the global
order with entries `< offset` dropped and `offset` subtracted from the
rest (a valid permutation of `range(layer_ndim)`), copies the global
`ndisplay`, and pushes `global point[axis + offset]` through the layer's
`set_point` (which stores it clamped to the axis range) for every axis
the layer owns. -/
theorem claim_C1_axis_reconciliation (g : GlobalDims) (d : LayerDims)
    (hperm : g.order.Perm (intRange g.ndim))
    (hoff : d.ndim < g.ndim)
    (hnd : g.ndisplay = 2 ∨ g.ndisplay = 3)
    (hplen : d.point.length = d.ndim) :
    ((updateLayerDims g d).order =
        (g.order.filter (fun a => (g.ndim : ℤ) - (d.ndim : ℤ) ≤ a)).map
          (fun a => a - ((g.ndim : ℤ) - (d.ndim : ℤ)))) ∧
    (updateLayerDims g d).order.Perm (intRange d.ndim) ∧
    (updateLayerDims g d).ndisplay = g.ndisplay ∧
    (∀ axis, axis < d.ndim → (updateLayerDims g d).point.getD axis 0 =
        clampPoint (d.range.getD axis (0, 0, 0))
          (g.point.getD (axis + (g.ndim - d.ndim)) 0)) := by
  have hordval : layerOrderOf g d.ndim =
      (g.order.filter (fun a => (g.ndim : ℤ) - (d.ndim : ℤ) ≤ a)).map
        (fun a => a - ((g.ndim : ℤ) - (d.ndim : ℤ))) := by
    unfold layerOrderOf
    rw [if_neg (by omega)]
  have hp : (layerOrderOf g d.ndim).Perm (intRange d.ndim) :=
    layerOrderOf_perm_of_lt g d.ndim hperm hoff
  refine ⟨?_, ?_, ?_, ?_⟩
  · rw [updateLayerDims_order, if_pos hp, hordval]
  · rw [updateLayerDims_order, if_pos hp]
    exact hp
  · rw [updateLayerDims_ndisplay, if_pos hnd]
  · intro axis ha
    rw [updateLayerDims_point, setPointsAux_getD _ _ _ _ _ ha (by rw [hplen]; exact ha)]
    congr 1
    unfold pyGet
    rw [if_pos (by omega)]
    congr 1
    omega

/-- A concrete global dims state for witnesses. -/
def gW : GlobalDims :=
  { ndim := 3, order := [2, 0, 1], ndisplay := 2, point := [1/2, 3/2, 5/2] }

/-- A concrete layer dims state for witnesses. -/
def dW : LayerDims :=
  { ndim := 2, order := [0, 1], ndisplay := 2, point := [0, 0],
    range := [(0, 10, 1), (0, 10, 1)] }

/-- Witness for C1 at a concrete 3D viewer with a 2D layer. -/
theorem claim_C1_axis_reconciliation_witness :
    dW.ndim < gW.ndim ∧
      (updateLayerDims gW dW).order.Perm (intRange dW.ndim) ∧
      (updateLayerDims gW dW).ndisplay = gW.ndisplay :=
  ⟨by decide,
   (claim_C1_axis_reconciliation gW dW (by decide) (by decide) (by decide) (by decide)).2.1,
   (claim_C1_axis_reconciliation gW dW (by decide) (by decide) (by decide) (by decide)).2.2.1⟩

/-! ### ViewerModel layer bookkeeping (viewer_model.py 848-930) -/

/-- The per-layer fields the `ViewerModel` reads: rank, own dims range,
selection flag and the status strings `_update_active_layer` copies. -/
structure ViewLayer where
  ndim : ℕ
  range : List (ℚ × ℚ × ℚ)
  selected : Bool
  status : String
  help : String
  cursor : String
  interactive : Bool
  deriving DecidableEq

/-- `ViewerModel._calc_layers_num_dims` (921-930): running maximum of the
layer ranks, starting from 0. -/
def calcLayersNumDims (layers : List ViewLayer) : ℕ :=
  layers.foldl (fun acc l => if l.ndim > acc then l.ndim else acc) 0

/-- The `(min, max, min)` union of two range triples; `none` plays the
role of the `(inf, -inf, inf)` identity element. -/
def mergeRange : Option (ℚ × ℚ × ℚ) → Option (ℚ × ℚ × ℚ) → Option (ℚ × ℚ × ℚ)
  | none, b => b
  | some a, none => some a
  | some a, some b => some (min a.1 b.1, max a.2.1 b.2.1, min a.2.2 b.2.2)

/-- `zip_longest(ranges, layer_range, fillvalue=(inf,-inf,inf))` combined
entrywise with the `(min, max, min)` union. -/
def zipLongestMerge : List (Option (ℚ × ℚ × ℚ)) → List (ℚ × ℚ × ℚ) →
    List (Option (ℚ × ℚ × ℚ))
  | acc, [] => acc
  | [], r :: rs => some r :: zipLongestMerge [] rs
  | a :: as, r :: rs => mergeRange a (some r) :: zipLongestMerge as rs

/-- `ViewerModel._calc_layers_ranges` (887-903): start from `ndims` empty
slots, fold in each layer's reversed range (trailing-axis alignment),
and reverse the result back to front-first axis order. -/
def calcLayersRanges (layers : List ViewLayer) : List (Option (ℚ × ℚ × ℚ)) :=
  (layers.foldl (fun acc l => zipLongestMerge acc l.range.reverse)
    (List.replicate (calcLayersNumDims layers) none)).reverse

/-- The range triples of the layers owning global axis `k` (of `ndims`,
front-based), each read at its trailing-aligned own axis. -/
def axisContribs (layers : List ViewLayer) (ndims k : ℕ) : List (ℚ × ℚ × ℚ) :=
  layers.filterMap (fun l =>
    if ndims ≤ k + l.ndim then l.range[k + l.ndim - ndims]? else none)

theorem calcNumDims_acc_le (layers : List ViewLayer) :
    ∀ acc : ℕ, acc ≤ layers.foldl (fun acc l => if l.ndim > acc then l.ndim else acc) acc ∧
      ∀ l ∈ layers, l.ndim ≤ layers.foldl (fun acc l => if l.ndim > acc then l.ndim else acc) acc := by
  induction layers with
  | nil => exact fun acc => ⟨le_rfl, by simp⟩
  | cons x xs ih =>
    intro acc
    have hstep : acc ≤ (if x.ndim > acc then x.ndim else acc) ∧
        x.ndim ≤ (if x.ndim > acc then x.ndim else acc) := by
      split_ifs <;> omega
    rcases ih (if x.ndim > acc then x.ndim else acc) with ⟨h1, h2⟩
    refine ⟨le_trans hstep.1 h1, ?_⟩
    intro l hl
    rcases List.mem_cons.mp hl with rfl | hl'
    · exact le_trans hstep.2 h1
    · exact h2 l hl'

theorem calcNumDims_acc_mem (layers : List ViewLayer) :
    ∀ acc : ℕ, layers.foldl (fun acc l => if l.ndim > acc then l.ndim else acc) acc = acc ∨
      ∃ l ∈ layers, layers.foldl (fun acc l => if l.ndim > acc then l.ndim else acc) acc = l.ndim := by
  induction layers with
  | nil => exact fun acc => Or.inl rfl
  | cons x xs ih =>
    intro acc
    rcases ih (if x.ndim > acc then x.ndim else acc) with h | ⟨l, hl, h⟩
    · rw [List.foldl_cons, h]
      split_ifs with hgt
      · exact Or.inr ⟨x, List.mem_cons_self x xs, rfl⟩
      · exact Or.inl rfl
    · exact Or.inr ⟨l, List.mem_cons_of_mem x hl, by rw [List.foldl_cons, h]⟩

theorem zipLongestMerge_getD (r : List (ℚ × ℚ × ℚ)) :
    ∀ (acc : List (Option (ℚ × ℚ × ℚ))) (j : ℕ),
      (zipLongestMerge acc r).getD j none = mergeRange (acc.getD j none) r[j]? := by
  induction r with
  | nil =>
    intro acc j
    rw [zipLongestMerge]
    cases h : acc.getD j none <;> simp [mergeRange, h]
  | cons r rs ih =>
    intro acc j
    cases acc with
    | nil =>
      cases j with
      | zero => simp [zipLongestMerge, mergeRange]
      | succ j' => simpa [zipLongestMerge, mergeRange] using ih [] j'
    | cons a as =>
      cases j with
      | zero => simp [zipLongestMerge]
      | succ j' => simpa [zipLongestMerge] using ih as j'

theorem foldRanges_getD (layers : List ViewLayer) :
    ∀ (acc : List (Option (ℚ × ℚ × ℚ))) (j : ℕ),
      ((layers.foldl (fun acc l => zipLongestMerge acc l.range.reverse) acc).getD j none)
        = layers.foldl (fun t l => mergeRange t l.range.reverse[j]?) (acc.getD j none) := by
  induction layers with
  | nil => intro acc j; rfl
  | cons x xs ih =>
    intro acc j
    rw [List.foldl_cons, List.foldl_cons, ih, zipLongestMerge_getD]

theorem zipLongestMerge_length (r : List (ℚ × ℚ × ℚ)) :
    ∀ acc : List (Option (ℚ × ℚ × ℚ)),
      (zipLongestMerge acc r).length = max acc.length r.length := by
  induction r with
  | nil => intro acc; rw [zipLongestMerge]; simp
  | cons r rs ih =>
    intro acc
    cases acc with
    | nil => simp [zipLongestMerge, ih]
    | cons a as => simp [zipLongestMerge, ih as]; omega

theorem foldRanges_length (layers : List ViewLayer) (ndims : ℕ)
    (hall : ∀ l ∈ layers, l.range.length ≤ ndims) :
    ∀ acc : List (Option (ℚ × ℚ × ℚ)), acc.length = ndims →
      (layers.foldl (fun acc l => zipLongestMerge acc l.range.reverse) acc).length = ndims := by
  induction layers with
  | nil => intro acc h; exact h
  | cons x xs ih =>
    intro acc h
    rw [List.foldl_cons]
    apply ih (fun l hl => hall l (List.mem_cons_of_mem x hl))
    rw [zipLongestMerge_length, h, List.length_reverse]
    have := hall x (List.mem_cons_self x xs)
    omega

theorem mergeRange_none (t : Option (ℚ × ℚ × ℚ)) : mergeRange t none = t := by
  cases t <;> rfl

theorem foldMerge_filterMap (f : ViewLayer → Option (ℚ × ℚ × ℚ)) (layers : List ViewLayer) :
    ∀ t0, layers.foldl (fun t l => mergeRange t (f l)) t0
      = (layers.filterMap f).foldl (fun t r => mergeRange t (some r)) t0 := by
  induction layers with
  | nil => intro t0; rfl
  | cons x xs ih =>
    intro t0
    rw [List.foldl_cons]
    cases hfx : f x with
    | none =>
      rw [mergeRange_none, List.filterMap_cons_none hfx, ih]
    | some r =>
      rw [List.filterMap_cons_some hfx, List.foldl_cons]
      exact ih _

/-- The running `(min, max, min)` combination on bare triples. -/
def combineT (a r : ℚ × ℚ × ℚ) : ℚ × ℚ × ℚ :=
  (min a.1 r.1, max a.2.1 r.2.1, min a.2.2 r.2.2)

theorem foldMerge_some (cs : List (ℚ × ℚ × ℚ)) :
    ∀ a, cs.foldl (fun t r => mergeRange t (some r)) (some a) = some (cs.foldl combineT a) := by
  induction cs with
  | nil => intro a; rfl
  | cons c cs ih => intro a; exact ih (combineT a c)

theorem foldCombine_fst (cs : List (ℚ × ℚ × ℚ)) :
    ∀ a, (cs.foldl combineT a).1 = (cs.map (fun r => r.1)).foldl min a.1 := by
  induction cs with
  | nil => intro a; rfl
  | cons c cs ih => intro a; exact ih (combineT a c)

theorem foldCombine_max (cs : List (ℚ × ℚ × ℚ)) :
    ∀ a, (cs.foldl combineT a).2.1 = (cs.map (fun r => r.2.1)).foldl max a.2.1 := by
  induction cs with
  | nil => intro a; rfl
  | cons c cs ih => intro a; exact ih (combineT a c)

theorem foldCombine_stp (cs : List (ℚ × ℚ × ℚ)) :
    ∀ a, (cs.foldl combineT a).2.2 = (cs.map (fun r => r.2.2)).foldl min a.2.2 := by
  induction cs with
  | nil => intro a; rfl
  | cons c cs ih => intro a; exact ih (combineT a c)

theorem foldl_min_le {α : Type} [LinearOrder α] (xs : List α) :
    ∀ a : α, xs.foldl min a ≤ a ∧ ∀ x ∈ xs, xs.foldl min a ≤ x := by
  induction xs with
  | nil => intro a; exact ⟨le_rfl, by simp⟩
  | cons x xs ih =>
    intro a
    rcases ih (min a x) with ⟨h1, h2⟩
    refine ⟨le_trans h1 (min_le_left a x), ?_⟩
    intro y hy
    rcases List.mem_cons.mp hy with rfl | hy'
    · exact le_trans h1 (min_le_right a y)
    · exact h2 y hy'

theorem foldl_min_mem {α : Type} [LinearOrder α] (xs : List α) :
    ∀ a : α, xs.foldl min a = a ∨ xs.foldl min a ∈ xs := by
  induction xs with
  | nil => intro a; exact Or.inl rfl
  | cons x xs ih =>
    intro a
    rcases ih (min a x) with h | h
    · rw [List.foldl_cons, h]
      rcases min_choice a x with h' | h'
      · exact Or.inl h'
      · exact Or.inr (by rw [h']; exact List.mem_cons_self x xs)
    · exact Or.inr (List.mem_cons_of_mem x h)

theorem foldl_max_ge {α : Type} [LinearOrder α] (xs : List α) :
    ∀ a : α, a ≤ xs.foldl max a ∧ ∀ x ∈ xs, x ≤ xs.foldl max a := by
  induction xs with
  | nil => intro a; exact ⟨le_rfl, by simp⟩
  | cons x xs ih =>
    intro a
    rcases ih (max a x) with ⟨h1, h2⟩
    refine ⟨le_trans (le_max_left a x) h1, ?_⟩
    intro y hy
    rcases List.mem_cons.mp hy with rfl | hy'
    · exact le_trans (le_max_right a y) h1
    · exact h2 y hy'

theorem foldl_max_mem {α : Type} [LinearOrder α] (xs : List α) :
    ∀ a : α, xs.foldl max a = a ∨ xs.foldl max a ∈ xs := by
  induction xs with
  | nil => intro a; exact Or.inl rfl
  | cons x xs ih =>
    intro a
    rcases ih (max a x) with h | h
    · rw [List.foldl_cons, h]
      rcases max_choice a x with h' | h'
      · exact Or.inl h'
      · exact Or.inr (by rw [h']; exact List.mem_cons_self x xs)
    · exact Or.inr (List.mem_cons_of_mem x h)

theorem foldl_mergeF_congr (ls : List ViewLayer) (F G : ViewLayer → Option (ℚ × ℚ × ℚ))
    (h : ∀ l ∈ ls, F l = G l) :
    ∀ t0, ls.foldl (fun t l => mergeRange t (F l)) t0
      = ls.foldl (fun t l => mergeRange t (G l)) t0 := by
  induction ls with
  | nil => intro t0; rfl
  | cons x xs ih =>
    intro t0
    rw [List.foldl_cons, List.foldl_cons, h x (List.mem_cons_self x xs),
      ih (fun l hl => h l (List.mem_cons_of_mem x hl))]

theorem calcLayersRanges_getD (layers : List ViewLayer)
    (hlen : ∀ l ∈ layers, l.range.length = l.ndim) (k : ℕ)
    (hk : k < calcLayersNumDims layers) :
    (calcLayersRanges layers).getD k none
      = (axisContribs layers (calcLayersNumDims layers) k).foldl
          (fun t r => mergeRange t (some r)) none := by
  have hall_le : ∀ l ∈ layers, l.range.length ≤ calcLayersNumDims layers := by
    intro l hl
    rw [hlen l hl]
    exact (calcNumDims_acc_le layers 0).2 l hl
  have hfoldlen :
      (layers.foldl (fun acc l => zipLongestMerge acc l.range.reverse)
        (List.replicate (calcLayersNumDims layers) none)).length
        = calcLayersNumDims layers :=
    foldRanges_length layers (calcLayersNumDims layers) hall_le _ (by simp)
  unfold calcLayersRanges
  rw [List.getD_eq_getElem?_getD, List.getElem?_reverse (by rw [hfoldlen]; exact hk), hfoldlen,
    ← List.getD_eq_getElem?_getD, foldRanges_getD]
  have hrep : (List.replicate (calcLayersNumDims layers) (none : Option (ℚ × ℚ × ℚ))).getD
      (calcLayersNumDims layers - 1 - k) none = none := by
    rw [List.getD_eq_getElem?_getD]
    cases h : (List.replicate (calcLayersNumDims layers) (none : Option (ℚ × ℚ × ℚ)))[calcLayersNumDims layers - 1 - k]? with
    | none => rfl
    | some v =>
      have := List.getElem?_mem h
      rw [List.eq_of_mem_replicate this]
      rfl
  rw [hrep]
  rw [foldl_mergeF_congr layers _
    (fun l => if calcLayersNumDims layers ≤ k + l.ndim
       then l.range[k + l.ndim - calcLayersNumDims layers]? else none) ?_ none]
  · rw [foldMerge_filterMap]
    rfl
  · intro l hl
    show l.range.reverse[calcLayersNumDims layers - 1 - k]? =
      if calcLayersNumDims layers ≤ k + l.ndim
      then l.range[k + l.ndim - calcLayersNumDims layers]? else none
    by_cases hcond : calcLayersNumDims layers ≤ k + l.ndim
    · rw [if_pos hcond]
      have hjlt : calcLayersNumDims layers - 1 - k < l.range.length := by
        rw [hlen l hl]; omega
      rw [List.getElem?_reverse hjlt]
      congr 1
      rw [hlen l hl]
      omega
    · rw [if_neg hcond]
      apply List.getElem?_eq_none
      rw [List.length_reverse, hlen l hl]
      omega

theorem axisContribs_ne_nil (layers : List ViewLayer)
    (hlen : ∀ l ∈ layers, l.range.length = l.ndim) (k : ℕ)
    (hk : k < calcLayersNumDims layers) :
    axisContribs layers (calcLayersNumDims layers) k ≠ [] := by
  rcases calcNumDims_acc_mem layers 0 with h | ⟨l, hl, h⟩
  · have h' : calcLayersNumDims layers = 0 := h
    omega
  · have h' : calcLayersNumDims layers = l.ndim := h
    have hcond : calcLayersNumDims layers ≤ k + l.ndim := by omega
    have hidx : k + l.ndim - calcLayersNumDims layers < l.range.length := by
      rw [hlen l hl]; omega
    have hc : (if calcLayersNumDims layers ≤ k + l.ndim
        then l.range[k + l.ndim - calcLayersNumDims layers]? else none)
        = some (l.range.get ⟨k + l.ndim - calcLayersNumDims layers, hidx⟩) := by
      rw [if_pos hcond, List.getElem?_eq_getElem hidx]
      rfl
    exact List.ne_nil_of_mem (List.mem_filterMap.mpr ⟨l, hl, hc⟩)

theorem foldl_min_char {α : Type} [LinearOrder α] (c : α) (cs : List α) :
    cs.foldl min c ∈ c :: cs ∧ ∀ x ∈ c :: cs, cs.foldl min c ≤ x := by
  constructor
  · rcases foldl_min_mem cs c with h | h
    · rw [h]; exact List.mem_cons_self _ _
    · exact List.mem_cons_of_mem _ h
  · intro x hx
    rcases List.mem_cons.mp hx with rfl | hx'
    · exact (foldl_min_le cs x).1
    · exact (foldl_min_le cs c).2 x hx'

theorem foldl_max_char {α : Type} [LinearOrder α] (c : α) (cs : List α) :
    cs.foldl max c ∈ c :: cs ∧ ∀ x ∈ c :: cs, x ≤ cs.foldl max c := by
  constructor
  · rcases foldl_max_mem cs c with h | h
    · rw [h]; exact List.mem_cons_self _ _
    · exact List.mem_cons_of_mem _ h
  · intro x hx
    rcases List.mem_cons.mp hx with rfl | hx'
    · exact (foldl_max_ge cs x).1
    · exact (foldl_max_ge cs c).2 x hx'

/-- The 3-axis image layer of the C4 scenario (shape `(6, 10, 15)`). -/
def imgW : ViewLayer :=
  { ndim := 3, range := [(0, 6, 1), (0, 10, 1), (0, 15, 1)], selected := false,
    status := "Ready", help := "", cursor := "standard", interactive := true }

/-- The 2-axis points layer of the C4 scenario. -/
def ptsW : ViewLayer :=
  { ndim := 2, range := [(-1, 12, 2), (0, 20, 5)], selected := false,
    status := "Ready", help := "", cursor := "standard", interactive := true }

/-- **C4**: after `_on_layers_change`, the global `ndim` is the maximum
layer rank (0 for no layers), and each global axis's range is the
`(min of mins, max of maxes, min of steps)` union over the layers owning
that axis, aligned from the trailing axis; checked concretely on a
3-axis image plus a 2-axis points layer. -/
theorem claim_C4_layers_ranges (layers : List ViewLayer)
    (hlen : ∀ l ∈ layers, l.range.length = l.ndim) :
    (calcLayersNumDims layers = 0 ∨ ∃ l ∈ layers, calcLayersNumDims layers = l.ndim) ∧
    (∀ l ∈ layers, l.ndim ≤ calcLayersNumDims layers) ∧
    (layers = [] → calcLayersNumDims layers = 0) ∧
    (calcLayersRanges layers).length = calcLayersNumDims layers ∧
    (∀ k, k < calcLayersNumDims layers → ∃ t,
      (calcLayersRanges layers).getD k none = some t ∧
      t.1 ∈ (axisContribs layers (calcLayersNumDims layers) k).map (fun r => r.1) ∧
      (∀ r ∈ axisContribs layers (calcLayersNumDims layers) k, t.1 ≤ r.1) ∧
      t.2.1 ∈ (axisContribs layers (calcLayersNumDims layers) k).map (fun r => r.2.1) ∧
      (∀ r ∈ axisContribs layers (calcLayersNumDims layers) k, r.2.1 ≤ t.2.1) ∧
      t.2.2 ∈ (axisContribs layers (calcLayersNumDims layers) k).map (fun r => r.2.2) ∧
      (∀ r ∈ axisContribs layers (calcLayersNumDims layers) k, t.2.2 ≤ r.2.2)) ∧
    (calcLayersNumDims [imgW, ptsW] = 3 ∧
      calcLayersRanges [imgW, ptsW] =
        [some (0, 6, 1), some (-1, 12, 1), some (0, 20, 1)]) := by
  refine ⟨?_, ?_, ?_, ?_, ?_, by decide⟩
  · rcases calcNumDims_acc_mem layers 0 with h | ⟨l, hl, h⟩
    · exact Or.inl h
    · exact Or.inr ⟨l, hl, h⟩
  · exact (calcNumDims_acc_le layers 0).2
  · rintro rfl; rfl
  · unfold calcLayersRanges
    rw [List.length_reverse]
    apply foldRanges_length layers (calcLayersNumDims layers)
      (fun l hl => by rw [hlen l hl]; exact (calcNumDims_acc_le layers 0).2 l hl)
    simp
  · intro k hk
    have hchar := calcLayersRanges_getD layers hlen k hk
    rcases hcs : axisContribs layers (calcLayersNumDims layers) k with _ | ⟨c, cs⟩
    · exact absurd hcs (axisContribs_ne_nil layers hlen k hk)
    · rw [hcs, List.foldl_cons] at hchar
      have hmerge : mergeRange none (some c) = some c := rfl
      rw [hmerge, foldMerge_some] at hchar
      refine ⟨cs.foldl combineT c, hchar, ?_, ?_, ?_, ?_, ?_, ?_⟩
      · rw [foldCombine_fst, List.map_cons]
        exact (foldl_min_char c.1 (cs.map (fun r => r.1))).1
      · intro r hr
        rw [foldCombine_fst]
        exact (foldl_min_char c.1 (cs.map (fun r => r.1))).2 r.1
          (by rcases List.mem_cons.mp hr with rfl | hr'
              · exact List.mem_cons_self _ _
              · exact List.mem_cons_of_mem _ (List.mem_map_of_mem _ hr'))
      · rw [foldCombine_max, List.map_cons]
        exact (foldl_max_char c.2.1 (cs.map (fun r => r.2.1))).1
      · intro r hr
        rw [foldCombine_max]
        exact (foldl_max_char c.2.1 (cs.map (fun r => r.2.1))).2 r.2.1
          (by rcases List.mem_cons.mp hr with rfl | hr'
              · exact List.mem_cons_self _ _
              · exact List.mem_cons_of_mem _ (List.mem_map_of_mem _ hr'))
      · rw [foldCombine_stp, List.map_cons]
        exact (foldl_min_char c.2.2 (cs.map (fun r => r.2.2))).1
      · intro r hr
        rw [foldCombine_stp]
        exact (foldl_min_char c.2.2 (cs.map (fun r => r.2.2))).2 r.2.2
          (by rcases List.mem_cons.mp hr with rfl | hr'
              · exact List.mem_cons_self _ _
              · exact List.mem_cons_of_mem _ (List.mem_map_of_mem _ hr'))

/-- Witness for C4: the concrete image-plus-points scenario. -/
theorem claim_C4_layers_ranges_witness :
    (∀ l ∈ [imgW, ptsW], l.range.length = l.ndim) ∧
      calcLayersNumDims [imgW, ptsW] = 3 ∧
      calcLayersRanges [imgW, ptsW] =
        [some (0, 6, 1), some (-1, 12, 1), some (0, 20, 1)] :=
  ⟨by decide, (claim_C4_layers_ranges [imgW, ptsW] (by decide)).2.2.2.2.2⟩

/-! ### `ViewerModel._update_active_layer` (viewer_model.py 848-879) -/

/-- The selection scan: first selected layer becomes the candidate; a
second selected layer forces `none` (the loop's `break`). -/
def findActive : List ViewLayer → Option ViewLayer → Option ViewLayer
  | [], acc => acc
  | l :: ls, acc =>
      if l.selected then
        match acc with
        | none => findActive ls (some l)
        | some _ => none
      else findActive ls acc

/-- The `ViewerModel` state fields `_update_active_layer` touches. -/
structure ViewerState where
  layers : List ViewLayer
  status : String
  help : String
  cursor : String
  interactive : Bool
  activeLayer : Option ViewLayer
  deriving DecidableEq

/-- `ViewerModel._update_active_layer`: scan for the active layer; with
none found, reset status/help/cursor/interactivity to the idle values,
otherwise copy them from the active layer. -/
def updateActiveLayer (v : ViewerState) : ViewerState :=
  match findActive v.layers none with
  | none =>
      { v with status := "Ready", help := "", cursor := "standard",
               interactive := true, activeLayer := none }
  | some l =>
      { v with status := l.status, help := l.help, cursor := l.cursor,
               interactive := l.interactive, activeLayer := some l }

theorem findActive_no_selected (ls : List ViewLayer) :
    ∀ acc, (∀ l ∈ ls, l.selected = false) → findActive ls acc = acc := by
  induction ls with
  | nil => intro acc _; rfl
  | cons x xs ih =>
    intro acc h
    show (if x.selected = true then
        match acc with
        | none => findActive xs (some x)
        | some _ => none
      else findActive xs acc) = acc
    rw [h x (List.mem_cons_self x xs)]
    simp only [Bool.false_eq_true, if_false]
    exact ih acc (fun l hl => h l (List.mem_cons_of_mem x hl))

theorem findActive_second (ls : List ViewLayer) :
    ∀ a, (∃ y ∈ ls, y.selected = true) → findActive ls (some a) = none := by
  induction ls with
  | nil => rintro a ⟨y, hy, _⟩; cases hy
  | cons x xs ih =>
    rintro a ⟨y, hy, hsel⟩
    show (if x.selected = true then
        match (some a : Option ViewLayer) with
        | none => findActive xs (some x)
        | some _ => none
      else findActive xs (some a)) = none
    by_cases hx : x.selected
    · rw [if_pos hx]
    · rw [if_neg hx]
      rcases List.mem_cons.mp hy with rfl | hy'
      · exact absurd hsel hx
      · exact ih a ⟨y, hy', hsel⟩

theorem findActive_unique (ls : List ViewLayer) (l : ViewLayer)
    (h : ls.filter (fun x => x.selected) = [l]) : findActive ls none = some l := by
  induction ls with
  | nil => simp at h
  | cons x xs ih =>
    show (if x.selected = true then
        match (none : Option ViewLayer) with
        | none => findActive xs (some x)
        | some _ => none
      else findActive xs none) = some l
    by_cases hx : x.selected
    · rw [if_pos hx]
      rw [List.filter_cons_of_pos hx] at h
      injection h with h1 h2
      subst h1
      apply findActive_no_selected
      intro y hy
      by_contra hsel
      have : y ∈ xs.filter (fun x => x.selected) := by
        apply List.mem_filter.mpr
        exact ⟨hy, by simpa using hsel⟩
      rw [h2] at this
      cases this
    · rw [if_neg hx]
      rw [List.filter_cons_of_neg (by simpa using hx)] at h
      exact ih h

theorem findActive_not_one (ls : List ViewLayer)
    (h : (ls.filter (fun x => x.selected)).length ≠ 1) : findActive ls none = none := by
  induction ls with
  | nil => rfl
  | cons x xs ih =>
    show (if x.selected = true then
        match (none : Option ViewLayer) with
        | none => findActive xs (some x)
        | some _ => none
      else findActive xs none) = none
    by_cases hx : x.selected
    · rw [if_pos hx]
      rw [List.filter_cons_of_pos hx] at h
      have : xs.filter (fun x => x.selected) ≠ [] := by
        intro hnil
        rw [hnil] at h
        exact h rfl
      rcases List.exists_mem_of_ne_nil _ this with ⟨y, hy⟩
      rcases List.mem_filter.mp hy with ⟨hyxs, hysel⟩
      exact findActive_second xs x ⟨y, hyxs, by simpa using hysel⟩
    · rw [if_neg hx]
      rw [List.filter_cons_of_neg (by simpa using hx)] at h
      exact ih h

/-- **C10**: after `_update_active_layer`, `active_layer` is the unique
selected layer when exactly one layer is selected, and `none` otherwise;
in the `none` case the status is "Ready", the help string empty, the
cursor "standard", and the viewer interactive. -/
theorem claim_C10_active_layer (v : ViewerState) :
    (∀ l, v.layers.filter (fun x => x.selected) = [l] →
      (updateActiveLayer v).activeLayer = some l) ∧
    ((v.layers.countP (fun x => x.selected)) ≠ 1 →
      (updateActiveLayer v).activeLayer = none ∧
      (updateActiveLayer v).status = "Ready" ∧
      (updateActiveLayer v).help = "" ∧
      (updateActiveLayer v).cursor = "standard" ∧
      (updateActiveLayer v).interactive = true) := by
  constructor
  · intro l hfil
    unfold updateActiveLayer
    rw [findActive_unique v.layers l hfil]
  · intro hcount
    have hlen : (v.layers.filter (fun x => x.selected)).length ≠ 1 := by
      rw [← List.countP_eq_length_filter]
      exact hcount
    unfold updateActiveLayer
    rw [findActive_not_one v.layers hlen]
    exact ⟨rfl, rfl, rfl, rfl, rfl⟩

/-- A selected concrete layer for the C10 witness. -/
def selW : ViewLayer :=
  { ndim := 2, range := [(0, 4, 1), (0, 5, 1)], selected := true,
    status := "sel", help := "h", cursor := "cross", interactive := false }

/-- A concrete viewer state for the C10 witness. -/
def vW : ViewerState :=
  { layers := [imgW, selW, ptsW], status := "x", help := "y", cursor := "z",
    interactive := false, activeLayer := none }

/-- Witness for C10: a three-layer viewer with exactly one selected
layer, and a variant with none selected. -/
theorem claim_C10_active_layer_witness :
    ((updateActiveLayer vW).activeLayer = some selW) ∧
      ((updateActiveLayer { vW with layers := [imgW, ptsW] }).activeLayer = none ∧
        (updateActiveLayer { vW with layers := [imgW, ptsW] }).status = "Ready") := by
  constructor
  · exact (claim_C10_active_layer vW).1 selW (by decide)
  · have h := (claim_C10_active_layer { vW with layers := [imgW, ptsW] }).2 (by decide)
    exact ⟨h.1, h.2.1⟩

/-! ### The Labels layer (napari/layers/labels/labels.py) -/

/-- The Labels layer state read and written by the embedded operations.
`shape` is the data's shape (`ndim = len(shape)`); `coordinates` is the
cursor position in data space. -/
structure LabelsLayer where
  shape : List ℤ
  data : GPos → ℤ
  dims : LayerDims
  nDimensional : Bool
  contiguous : Bool
  brushSize : ℤ
  selectedLabel : ℤ
  selectedColor : Option (List ℚ)
  coordinates : List ℚ

/-- `Labels.brush_size` setter (labels.py 218-222): stores
`int(brush_size)`.  The `cursor_size` update it also performs is
presentation-only and not modelled. -/
def setBrushSize (L : LabelsLayer) (v : ℚ) : LabelsLayer :=
  { L with brushSize := pyTrunc v }

/-- `Labels.get_color` (labels.py 349-356): background label 0 maps to
`None`; any other label is mapped through the colormap, whose internals
are external to this repository and abstracted as `cmap`. -/
def getColor (cmap : ℤ → List ℚ) (label : ℤ) : Option (List ℚ) :=
  if label == 0 then none else some (cmap label)

/-- `Labels.selected_label` setter (labels.py 253-262): negative values
raise `ValueError` (returned as the message, with the layer untouched);
an unchanged value returns early; otherwise the label and its color are
stored. -/
def setSelectedLabel (cmap : ℤ → List ℚ) (L : LabelsLayer) (v : ℤ) :
    LabelsLayer × Option String :=
  if v < 0 then (L, some "cannot reduce selected label below 0")
  else if v == L.selectedLabel then (L, none)
  else ({ L with selectedLabel := v, selectedColor := getColor cmap v }, none)

/-- **C9**: the `brush_size` setter truncates: the stored value is
`int(v)`, and for any non-integer `v` reading the property back does not
return `v`. -/
theorem claim_C9_brush_size_truncated (L : LabelsLayer) (v : ℚ) :
    (setBrushSize L v).brushSize = pyTrunc v ∧
      (v.den ≠ 1 → ((setBrushSize L v).brushSize : ℚ) ≠ v) := by
  refine ⟨rfl, fun hden heq => ?_⟩
  apply hden
  rw [← heq]
  exact Rat.den_intCast _

/-- **C7**: assigning a negative `selected_label` raises and leaves the
label and the selected color at their prior values; a non-negative
assignment stores the value. -/
theorem claim_C7_selected_label_validation (cmap : ℤ → List ℚ) (L : LabelsLayer) (v : ℤ) :
    (v < 0 → (setSelectedLabel cmap L v).2.isSome = true ∧
      (setSelectedLabel cmap L v).1.selectedLabel = L.selectedLabel ∧
      (setSelectedLabel cmap L v).1.selectedColor = L.selectedColor) ∧
    (0 ≤ v → (setSelectedLabel cmap L v).2 = none ∧
      (setSelectedLabel cmap L v).1.selectedLabel = v) := by
  constructor
  · intro hv
    unfold setSelectedLabel
    rw [if_pos hv]
    exact ⟨rfl, rfl, rfl⟩
  · intro hv
    unfold setSelectedLabel
    rw [if_neg (by omega)]
    by_cases heq : v = L.selectedLabel
    · rw [if_pos (beq_iff_eq.mpr heq)]
      exact ⟨rfl, heq.symm⟩
    · rw [if_neg (by simpa using heq)]
      exact ⟨rfl, rfl⟩

/-- A concrete Labels layer for witnesses: 2D data `[[1,1,0],[1,0,0]]`. -/
def labW : LabelsLayer :=
  { shape := [2, 3], data := listGrid2 [[1, 1, 0], [1, 0, 0]],
    dims := { ndim := 2, order := [0, 1], ndisplay := 2, point := [0, 0],
              range := [(0, 2, 1), (0, 3, 1)] },
    nDimensional := false, contiguous := true, brushSize := 10,
    selectedLabel := 1, selectedColor := none, coordinates := [0, 0] }

/-- Witness for C9: setting `brush_size = 7/2` stores a value that reads
back different from `7/2`. -/
theorem claim_C9_brush_size_truncated_witness :
    (mkRat 7 2).den ≠ 1 ∧ ((setBrushSize labW (mkRat 7 2)).brushSize : ℚ) ≠ mkRat 7 2 :=
  ⟨by decide, (claim_C9_brush_size_truncated labW (mkRat 7 2)).2 (by decide)⟩

/-- Witness for C7: assigning `-1` errors and keeps the prior label 1;
assigning `5` stores it. -/
theorem claim_C7_selected_label_validation_witness :
    ((setSelectedLabel (fun _ => [0, 0, 0, 1]) labW (-1)).2.isSome = true ∧
      (setSelectedLabel (fun _ => [0, 0, 0, 1]) labW (-1)).1.selectedLabel = labW.selectedLabel ∧
      (setSelectedLabel (fun _ => [0, 0, 0, 1]) labW (-1)).1.selectedColor = labW.selectedColor) ∧
    (setSelectedLabel (fun _ => [0, 0, 0, 1]) labW 5).1.selectedLabel = 5 :=
  ⟨(claim_C7_selected_label_validation (fun _ => [0, 0, 0, 1]) labW (-1)).1 (by decide),
   ((claim_C7_selected_label_validation (fun _ => [0, 0, 0, 1]) labW 5).2 (by decide)).2⟩

/-- The shape of `_data_labels`, in display order. -/
def sliceShape (L : LabelsLayer) : List ℤ :=
  (displayedAxes L.dims).map (fun a => L.shape.getD a.toNat 0)

/-- The native index of a display-order slice index: displayed axes take
the slice coordinates, the rest are pinned to the rounded point.
Modelled from the spec: `dims.indices` rounds the point on non-displayed
axes and takes a full slice on displayed ones, and `_set_view_slice`
(labels.py 358-367) transposes `data[dims.indices]` into display order. -/
def nativeOf (L : LabelsLayer) (q : GPos) : GPos :=
  (List.range L.shape.length).map (fun i : ℕ =>
    match (displayedAxes L.dims).findIdx? (fun a => a == ((i : ℕ) : ℤ)) with
    | some k => q.getD k 0
    | none => npRound (L.dims.point.getD i 0))

/-- `_data_labels` as a function on display-order index space. -/
def dataLabels (L : LabelsLayer) : GPos → ℤ := fun q => L.data (nativeOf L q)

/-- The rounded cursor coordinates selected on the displayed axes,
`coord[self.dims.displayed]`. -/
def dispCursor (L : LabelsLayer) : GPos :=
  (displayedAxes L.dims).map (fun d => (L.coordinates.map npRound).getD d.toNat 0)

/-- `Labels.get_value` (labels.py 471-489): round the cursor, keep the
displayed coordinates, and read `_data_labels` when they are inside its
shape, else return `None`. -/
def getValue (L : LabelsLayer) : Option ℤ :=
  if (List.zip (dispCursor L) (sliceShape L)).all (fun cs => 0 ≤ cs.1 && cs.1 < cs.2)
  then some (dataLabels L (dispCursor L))
  else none

/-- **C8**: `get_value` returns the absence value `None` exactly when the
rounded cursor coordinates on the displayed axes fall outside the bounds
of the current displayed slice, and otherwise the slice's label value at
those coordinates. -/
theorem claim_C8_get_value_bounds (L : LabelsLayer) :
    (getValue L = none ↔
      ¬ ∀ d ∈ displayedAxes L.dims,
          0 ≤ (L.coordinates.map npRound).getD d.toNat 0 ∧
          (L.coordinates.map npRound).getD d.toNat 0 < L.shape.getD d.toNat 0) ∧
    ((∀ d ∈ displayedAxes L.dims,
          0 ≤ (L.coordinates.map npRound).getD d.toNat 0 ∧
          (L.coordinates.map npRound).getD d.toNat 0 < L.shape.getD d.toNat 0) →
      getValue L = some (dataLabels L (dispCursor L))) := by
  have hcond : ((List.zip (dispCursor L) (sliceShape L)).all
        (fun cs => 0 ≤ cs.1 && cs.1 < cs.2) = true) ↔
      ∀ d ∈ displayedAxes L.dims,
        0 ≤ (L.coordinates.map npRound).getD d.toNat 0 ∧
        (L.coordinates.map npRound).getD d.toNat 0 < L.shape.getD d.toNat 0 := by
    rw [dispCursor, sliceShape, List.zip_map', List.all_eq_true]
    constructor
    · intro h d hd
      have := h _ (List.mem_map_of_mem _ hd)
      simpa using this
    · intro h x hx
      rcases List.mem_map.mp hx with ⟨d, hd, rfl⟩
      simpa using h d hd
  constructor
  · unfold getValue
    by_cases hb : (List.zip (dispCursor L) (sliceShape L)).all
        (fun cs => 0 ≤ cs.1 && cs.1 < cs.2) = true
    · rw [if_pos hb]
      simp only [reduceCtorEq, false_iff, not_not]
      exact hcond.mp hb
    · rw [if_neg hb]
      simp only [true_iff]
      intro hall
      exact hb (hcond.mpr hall)
  · intro hall
    unfold getValue
    rw [if_pos (hcond.mpr hall)]

/-- Witness for C8: the cursor at the origin of the 2x3 concrete layer
is in bounds and `get_value` returns the slice value. -/
theorem claim_C8_get_value_bounds_witness :
    (∀ d ∈ displayedAxes labW.dims,
        0 ≤ (labW.coordinates.map npRound).getD d.toNat 0 ∧
        (labW.coordinates.map npRound).getD d.toNat 0 < labW.shape.getD d.toNat 0) ∧
      getValue labW = some (dataLabels labW (dispCursor labW)) :=
  ⟨by decide, (claim_C8_get_value_bounds labW).2 (by decide)⟩

/-! ### `Labels.paint` (labels.py 415-469) -/

/-- A per-axis index specification: `slice(lo, hi, 1)` or an integer. -/
inductive AxSpec where
  | sl : ℤ → ℤ → AxSpec
  | ix : ℤ → AxSpec

/-- Python `slice.indices` for step 1 on an axis of extent `s`: covered
indices are `[start, stop)` with negative bounds wrapped and both ends
clipped into `[0, s]`. -/
def sliceCovers (s lo hi c : ℤ) : Bool :=
  let start := if lo < 0 then max (s + lo) 0 else min lo s
  let stop := if hi < 0 then max (s + hi) 0 else min hi s
  start ≤ c && c < stop

/-- numpy integer basic indexing on an axis of extent `s`: negative
indices wrap once; anything else out of range raises `IndexError`. -/
def ixResolve (s i : ℤ) : Option ℤ :=
  if 0 ≤ i && i < s then some i
  else if i < 0 && 0 ≤ i + s then some (i + s)
  else none

/-- One brush slice: `slice(round(clip(c - bs/2 + 0.5, 0, s)),
round(clip(c + bs/2 + 0.5, 0, s)), 1)`. -/
def brushSlice (bs : ℤ) (c : ℚ) (s : ℤ) : AxSpec :=
  AxSpec.sl (npRound (npClip (c - (bs : ℚ) / 2 + 1/2) 0 (s : ℚ)))
            (npRound (npClip (c + (bs : ℚ) / 2 + 1/2) 0 (s : ℚ)))

/-- The `slice_coord` tuple built by `Labels.paint`: in the
`n_dimensional or ndim == 2` branch a brush slice on every axis of
`zip(coord, shape)`; otherwise brush slices on the displayed axes and
the rounded coordinate pinned on the non-displayed axes (positions
neither loop touches keep the initial integer 0). -/
def paintSpec (L : LabelsLayer) (coord : List ℚ) : List AxSpec :=
  if L.nDimensional || (L.shape.length == 2) then
    (List.zip coord L.shape).map (fun cs => brushSlice L.brushSize cs.1 cs.2)
  else
    (List.range L.shape.length).map (fun i : ℕ =>
      if ((i : ℕ) : ℤ) ∈ notDisplayedAxes L.dims then
        AxSpec.ix (npRound (coord.getD i 0))
      else if ((i : ℕ) : ℤ) ∈ displayedAxes L.dims then
        brushSlice L.brushSize (coord.getD i 0) (L.shape.getD i 0)
      else AxSpec.ix 0)

/-- Every integer-index entry resolves (otherwise numpy raises before
writing anything); axes beyond the specification are full slices. -/
def specsResolve : List ℤ → List AxSpec → Bool
  | _, [] => true
  | s :: shr, sp :: spr =>
      (match sp with
       | AxSpec.sl _ _ => true
       | AxSpec.ix i => (ixResolve s i).isSome) && specsResolve shr spr
  | [], _ :: _ => false

/-- The cells of the array the assignment `data[slice_coord] = v`
targets. -/
def specCovers : List ℤ → List AxSpec → GPos → Bool
  | [], [], [] => true
  | s :: shr, [], c :: pr => 0 ≤ c && c < s && specCovers shr [] pr
  | s :: shr, AxSpec.sl lo hi :: spr, c :: pr =>
      sliceCovers s lo hi c && specCovers shr spr pr
  | s :: shr, AxSpec.ix i :: spr, c :: pr =>
      (match ixResolve s i with
       | some r => c == r
       | none => false) && specCovers shr spr pr
  | _, _, _ => false

/-- `Labels.paint` (labels.py 415-469): write `new_label` into all cells
covered by `slice_coord`; `none` models the `IndexError` numpy raises on
an unresolvable pinned index. -/
def paint (L : LabelsLayer) (coord : List ℚ) (newl : ℤ) : Option (GPos → ℤ) :=
  if specsResolve L.shape (paintSpec L coord) then
    some (fun p => if specCovers L.shape (paintSpec L coord) p then newl else L.data p)
  else none

theorem sliceCovers_bounds {s lo hi c : ℤ} (hs : 0 ≤ s)
    (h : sliceCovers s lo hi c = true) : 0 ≤ c ∧ c < s := by
  unfold sliceCovers at h
  simp only [Bool.and_eq_true, decide_eq_true_eq] at h
  split_ifs at h <;> omega

theorem ixResolve_bounds {s i r : ℤ} (h : ixResolve s i = some r) : 0 ≤ r ∧ r < s := by
  unfold ixResolve at h
  split_ifs at h with h1 h2
  · injection h with h'
    simp only [Bool.and_eq_true, decide_eq_true_eq] at h1
    omega
  · injection h with h'
    simp only [Bool.and_eq_true, decide_eq_true_eq] at h2
    omega

theorem specCovers_bounds : ∀ (shape : List ℤ) (specs : List AxSpec) (p : GPos),
    (∀ s ∈ shape, 0 ≤ s) → specCovers shape specs p = true →
    posInBounds shape p = true := by
  intro shape
  induction shape with
  | nil =>
    intro specs p _ h
    cases specs <;> cases p <;> simp_all [specCovers, posInBounds]
  | cons s shr ih =>
    intro specs p hs h
    have hs0 : 0 ≤ s := hs s (List.mem_cons_self s shr)
    have hsr : ∀ x ∈ shr, 0 ≤ x := fun x hx => hs x (List.mem_cons_of_mem s hx)
    cases specs with
    | nil =>
      cases p with
      | nil => cases h
      | cons c pr =>
        rw [specCovers] at h
        simp only [Bool.and_eq_true, decide_eq_true_eq] at h
        rw [posInBounds]
        simp only [Bool.and_eq_true, decide_eq_true_eq]
        exact ⟨⟨h.1.1, h.1.2⟩, ih [] pr hsr h.2⟩
    | cons sp spr =>
      cases p with
      | nil => cases sp <;> cases h
      | cons c pr =>
        cases sp with
        | sl lo hi =>
          rw [specCovers] at h
          simp only [Bool.and_eq_true] at h
          have hb := sliceCovers_bounds hs0 h.1
          rw [posInBounds]
          simp only [Bool.and_eq_true, decide_eq_true_eq]
          exact ⟨⟨hb.1, hb.2⟩, ih spr pr hsr h.2⟩
        | ix i =>
          rw [specCovers] at h
          simp only [Bool.and_eq_true] at h
          rcases h with ⟨hm, hrec⟩
          rw [posInBounds]
          simp only [Bool.and_eq_true, decide_eq_true_eq]
          refine ⟨?_, ih spr pr hsr hrec⟩
          cases hres : ixResolve s i with
          | none => rw [hres] at hm; cases hm
          | some r =>
            rw [hres] at hm
            have : c = r := by simpa using hm
            subst this
            exact ixResolve_bounds hres

/-- **C3**: `paint` only writes inside the data's bounds: for every
cursor coordinate (also outside the extent), every brush size and label,
the brush neighborhood is clipped to the extent on sliced axes, pinned
indices resolve inside the extent or the write raises instead, and so
every modified cell is in bounds on every axis. -/
theorem claim_C3_paint_in_bounds (L : LabelsLayer) (coord : List ℚ) (newl : ℤ)
    (hs : ∀ s ∈ L.shape, 0 ≤ s) :
    ∀ d', paint L coord newl = some d' →
      ∀ p, d' p ≠ L.data p → posInBounds L.shape p = true := by
  intro d' hd' p hp
  unfold paint at hd'
  split_ifs at hd' with hres
  injection hd' with hd'
  subst hd'
  by_cases hcov : specCovers L.shape (paintSpec L coord) p = true
  · exact specCovers_bounds L.shape (paintSpec L coord) p hs hcov
  · have hp' : (if specCovers L.shape (paintSpec L coord) p = true then newl else L.data p)
        ≠ L.data p := hp
    rw [if_neg hcov] at hp'
    exact absurd rfl hp'

/-- Witness for C3: a 2x3 layer painted at a cursor far outside the
extent. -/
theorem claim_C3_paint_in_bounds_witness :
    (∀ s ∈ labW.shape, 0 ≤ s) ∧
      (∀ d', paint labW [mkRat 21 2, -3] 7 = some d' →
        ∀ p, d' p ≠ labW.data p → posInBounds labW.shape p = true) :=
  ⟨by decide, claim_C3_paint_in_bounds labW [mkRat 21 2, -3] 7 (by decide)⟩

/-! ### `Labels.fill` dispatch (labels.py 385-413) -/

/-- A cell lies on the current slice: its coordinates on every
non-displayed axis equal the rounded point there (the integer entries of
`self.indices`). -/
def onSliceB (L : LabelsLayer) (p : GPos) : Bool :=
  p.length == L.shape.length &&
    (notDisplayedAxes L.dims).all
      (fun i => p.getD i.toNat 0 == npRound (L.dims.point.getD i.toNat 0))

/-- Projection of a native cell onto the displayed axes, in display
order. -/
def dispProj (L : LabelsLayer) (p : GPos) : GPos :=
  (displayedAxes L.dims).map (fun d => p.getD d.toNat 0)

/-- The displayed axes in ascending native order: the axes that carry a
full `slice(None)` in `self.indices`, in the order the write-back target
region `self.data[tuple(self.indices)]` presents them. -/
def ascDisplayed (L : LabelsLayer) : List ℤ :=
  (intRange L.shape.length).filter (fun a => (displayedAxes L.dims).contains a)

/-- Projection of a native cell onto the displayed axes in ascending
native order: the index of the cell inside the write-back target
region. -/
def ascProj (L : LabelsLayer) (p : GPos) : GPos :=
  (ascDisplayed L).map (fun d => p.getD d.toNat 0)

/-- The shape of the write-back target region
`self.data[tuple(self.indices)]`, in ascending native order. -/
def ascShape (L : LabelsLayer) : List ℤ :=
  (ascDisplayed L).map (fun a => L.shape.getD a.toNat 0)

/-- `Labels.fill` (labels.py 369-413): whole-volume when
`n_dimensional or ndim == 2`.  Otherwise `labels = self._data_labels` is
a numpy view of `self.data` (basic indexing, `np.asarray` on an ndarray
and `transpose` all return views), so `labels[matches] = new_label`
already mutates `self.data` through the view; then
`self.data[tuple(self.indices)] = labels` re-assigns the display-order
`labels` array into the native-ascending-order target region.  When the
two shapes differ numpy raises `ValueError` and the state keeps just the
view mutation; when they agree numpy copies the overlapping source
first, so the cell at ascending-order region index `r` receives the
filled slice's value at display-order index `r` — the identity exactly
when the displayed axes are already ascending, a transposed re-install
otherwise.  Returns the final data together with `some "ValueError"` on
the raising path. -/
def fillOp (L : LabelsLayer) (coord : List ℚ) (old newl : ℤ) :
    (GPos → ℤ) × Option String :=
  if L.nDimensional || (L.shape.length == 2) then
    (fillDataFull L.shape L.data (coord.map npRound) old newl L.contiguous, none)
  else
    if ascShape L = sliceShape L then
      ((fun p =>
          if onSliceB L p then
            fillDataFull (sliceShape L) (dataLabels L)
              ((displayedAxes L.dims).map (fun d => (coord.map npRound).getD d.toNat 0))
              old newl L.contiguous (ascProj L p)
          else L.data p), none)
    else
      ((fun p =>
          if onSliceB L p &&
              fillMask (sliceShape L) (dataLabels L)
                ((displayedAxes L.dims).map (fun d => (coord.map npRound).getD d.toNat 0))
                old L.contiguous (dispProj L p) then
            newl
          else L.data p),
       some "ValueError")

theorem findIdxQ_spec : ∀ (l : List ℤ) (t : ℤ) (i k : ℕ),
    List.findIdx? (fun a => a == t) l i = some k →
    i ≤ k ∧ k - i < l.length ∧ l.getD (k - i) 0 = t := by
  intro l t
  induction l with
  | nil => intro i k h; cases h
  | cons x xs ih =>
    intro i k h
    rw [List.findIdx?_cons] at h
    by_cases hx : (x == t) = true
    · rw [if_pos hx] at h
      injection h with h
      subst h
      refine ⟨le_rfl, by simp, ?_⟩
      simp only [Nat.sub_self, List.getD_cons_zero]
      simpa using hx
    · rw [if_neg hx] at h
      rcases ih (i + 1) k h with ⟨h1, h2, h3⟩
      refine ⟨by omega, by simp only [List.length_cons]; omega, ?_⟩
      have hki : k - i = (k - (i + 1)) + 1 := by omega
      rw [hki, List.getD_cons_succ]
      exact h3

theorem dataLabels_dispProj (L : LabelsLayer)
    (hperm : L.dims.order.Perm (intRange L.shape.length))
    (p : GPos) (hsl : onSliceB L p = true) :
    dataLabels L (dispProj L p) = L.data p := by
  unfold dataLabels
  congr 1
  have hslparts := hsl
  unfold onSliceB at hslparts
  simp only [Bool.and_eq_true, beq_iff_eq] at hslparts
  have hplen : p.length = L.shape.length := hslparts.1
  have hall := hslparts.2
  apply List.ext_getElem
  · simp [nativeOf, hplen]
  · intro i h1 h2
    have hi : i < L.shape.length := by
      simpa [nativeOf] using h1
    simp only [nativeOf, List.getElem_map, List.getElem_range]
    cases hfind : (displayedAxes L.dims).findIdx? (fun a => a == ((i : ℕ) : ℤ)) with
    | some k =>
      rcases findIdxQ_spec (displayedAxes L.dims) ((i : ℕ) : ℤ) 0 k hfind with ⟨_, hk0, hkt⟩
      rw [Nat.sub_zero] at hk0 hkt
      show (dispProj L p).getD k 0 = p[i]
      unfold dispProj
      rw [List.getD_eq_getElem?_getD, List.getElem?_map, List.getElem?_eq_getElem hk0]
      simp only [Option.map_some', Option.getD_some]
      have hde : (displayedAxes L.dims)[k] = ((i : ℕ) : ℤ) := by
        rw [← hkt, List.getD_eq_getElem?_getD, List.getElem?_eq_getElem hk0, Option.getD_some]
      rw [hde, Int.toNat_ofNat, List.getD_eq_getElem?_getD, List.getElem?_eq_getElem h2,
        Option.getD_some]
    | none =>
      have hnone := List.findIdx?_eq_none_iff.mp hfind
      have hmem : ((i : ℕ) : ℤ) ∈ L.dims.order :=
        hperm.mem_iff.mpr (mem_intRange.mpr ⟨by omega, by exact_mod_cast hi⟩)
      have hsplit : L.dims.order = notDisplayedAxes L.dims ++ displayedAxes L.dims :=
        (List.take_append_drop _ _).symm
      rw [hsplit, List.mem_append] at hmem
      rcases hmem with hnm | hdm
      · have := List.all_eq_true.mp hall _ hnm
        simp only [beq_iff_eq, Int.toNat_ofNat] at this
        show npRound (L.dims.point.getD i 0) = p[i]
        rw [← this, List.getD_eq_getElem?_getD, List.getElem?_eq_getElem h2]
        rfl
      · have := hnone _ hdm
        simp at this

/-- **C6** (amended): with `n_dimensional = False` and more than 2 data
dimensions, `fill` is slice-scoped: every cell whose coordinate on some
non-displayed axis differs from the rounded current point is unchanged
(also on the raising path); when the displayed axes are in ascending
native order the write-back is an identity re-assignment and every cell
of the current slice receives the corresponding value of the modified
slice; when the write-back shapes differ, `fill` raises `ValueError`;
with `n_dimensional = True` or 2D data the scope is the whole volume.
For valid dims the extracted slice agrees with the volume on the
slice. -/
theorem claim_C6_fill_slice_scope (L : LabelsLayer) (coord : List ℚ) (old newl : ℤ) :
    (L.nDimensional = false → 2 < L.shape.length →
      ∀ p, (∃ i ∈ notDisplayedAxes L.dims,
          p.getD i.toNat 0 ≠ npRound (L.dims.point.getD i.toNat 0)) →
        (fillOp L coord old newl).1 p = L.data p) ∧
    (L.nDimensional = false → 2 < L.shape.length →
      displayedAxes L.dims = ascDisplayed L →
      ∀ p, onSliceB L p = true →
        (fillOp L coord old newl).1 p =
          fillDataFull (sliceShape L) (dataLabels L)
            ((displayedAxes L.dims).map (fun d => (coord.map npRound).getD d.toNat 0))
            old newl L.contiguous (dispProj L p)) ∧
    (L.nDimensional = false → 2 < L.shape.length →
      ascShape L ≠ sliceShape L →
      (fillOp L coord old newl).2 = some "ValueError") ∧
    ((L.nDimensional = true ∨ L.shape.length = 2) →
      fillOp L coord old newl =
        (fillDataFull L.shape L.data (coord.map npRound) old newl L.contiguous, none)) ∧
    (L.dims.order.Perm (intRange L.shape.length) →
      ∀ p, onSliceB L p = true → dataLabels L (dispProj L p) = L.data p) := by
  refine ⟨?_, ?_, ?_, ?_, ?_⟩
  · intro hnd hlen p hoff
    have hcond : (L.nDimensional || (L.shape.length == 2)) = false := by
      rw [hnd]
      simp only [Bool.false_or, beq_eq_false_iff_ne]
      omega
    unfold fillOp
    rw [hcond]
    simp only [Bool.false_eq_true, if_false]
    have hslice : onSliceB L p = false := by
      rcases hoff with ⟨i, hi, hne⟩
      unfold onSliceB
      rcases hall : (notDisplayedAxes L.dims).all
          (fun i => p.getD i.toNat 0 == npRound (L.dims.point.getD i.toNat 0)) with _ | _
      · simp
      · exact absurd (by simpa using List.all_eq_true.mp hall i hi) hne
    split_ifs with hsh <;> simp [hslice]
  · intro hnd hlen hasc p hsl
    have hcond : (L.nDimensional || (L.shape.length == 2)) = false := by
      rw [hnd]
      simp only [Bool.false_or, beq_eq_false_iff_ne]
      omega
    unfold fillOp
    rw [hcond]
    simp only [Bool.false_eq_true, if_false]
    have hsh : ascShape L = sliceShape L := by
      unfold ascShape sliceShape
      rw [hasc]
    rw [if_pos hsh]
    have hproj : ascProj L p = dispProj L p := by
      unfold ascProj dispProj
      rw [hasc]
    show (if onSliceB L p then
        fillDataFull (sliceShape L) (dataLabels L)
          ((displayedAxes L.dims).map (fun d => (coord.map npRound).getD d.toNat 0))
          old newl L.contiguous (ascProj L p)
      else L.data p) =
      fillDataFull (sliceShape L) (dataLabels L)
        ((displayedAxes L.dims).map (fun d => (coord.map npRound).getD d.toNat 0))
        old newl L.contiguous (dispProj L p)
    rw [if_pos hsl, hproj]
  · intro hnd hlen hsh
    have hcond : (L.nDimensional || (L.shape.length == 2)) = false := by
      rw [hnd]
      simp only [Bool.false_or, beq_eq_false_iff_ne]
      omega
    unfold fillOp
    rw [hcond]
    simp only [Bool.false_eq_true, if_false]
    rw [if_neg hsh]
  · intro hcase
    have hcond : (L.nDimensional || (L.shape.length == 2)) = true := by
      rcases hcase with h | h
      · rw [h]; rfl
      · rw [h]; simp
    unfold fillOp
    rw [hcond]
    simp
  · intro hperm p hsl
    exact dataLabels_dispProj L hperm p hsl

/-- A concrete 3D Labels layer (shape 2x2x3, ascending display order,
slice pinned at axis 0 = 1) for the C6 witness. -/
def labW3 : LabelsLayer :=
  { shape := [2, 2, 3], data := fun _ => 0,
    dims := { ndim := 3, order := [0, 1, 2], ndisplay := 2, point := [1, 0, 0],
              range := [(0, 2, 1), (0, 2, 1), (0, 3, 1)] },
    nDimensional := false, contiguous := true, brushSize := 10,
    selectedLabel := 1, selectedColor := none, coordinates := [1, 0, 0] }

/-- Witness for C6: on the concrete 3D layer with ascending display
order, a cell off the current slice is untouched by a slice-scoped fill
and an on-slice cell carries the modified slice's value. -/
theorem claim_C6_fill_slice_scope_witness :
    labW3.nDimensional = false ∧ 2 < labW3.shape.length ∧
      displayedAxes labW3.dims = ascDisplayed labW3 ∧
      (fillOp labW3 [1, 0, 0] 0 5).1 [0, 1, 1] = labW3.data [0, 1, 1] ∧
      (fillOp labW3 [1, 0, 0] 0 5).1 [1, 0, 1] =
        fillDataFull (sliceShape labW3) (dataLabels labW3)
          ((displayedAxes labW3.dims).map
            (fun d => (([1, 0, 0] : List ℚ).map npRound).getD d.toNat 0))
          0 5 labW3.contiguous (dispProj labW3 [1, 0, 1]) :=
  ⟨rfl, by decide, by decide,
   (claim_C6_fill_slice_scope labW3 [1, 0, 0] 0 5).1 rfl (by decide) [0, 1, 1]
     ⟨0, by decide, by decide⟩,
   (claim_C6_fill_slice_scope labW3 [1, 0, 0] 0 5).2.1 rfl (by decide) (by decide)
     [1, 0, 1] (by decide)⟩

/-- A concrete 3D Labels layer with permuted display order `[2, 1]` and
a square slice (shape 1x2x2): the write-back shapes agree, so the
transposed slice is re-installed. -/
def labT : LabelsLayer :=
  { shape := [1, 2, 2], data := fun p => listGrid2 [[1, 2], [3, 4]] (p.drop 1),
    dims := { ndim := 3, order := [0, 2, 1], ndisplay := 2, point := [0, 0, 0],
              range := [(0, 1, 1), (0, 2, 1), (0, 2, 1)] },
    nDimensional := false, contiguous := false, brushSize := 10,
    selectedLabel := 1, selectedColor := none, coordinates := [0, 0, 0] }

/-- Like `labT` but with unequal displayed extents (shape 1x2x3): the
write-back shapes differ, so `fill` raises `ValueError`. -/
def labT2 : LabelsLayer :=
  { shape := [1, 2, 3], data := fun p => listGrid2 [[1, 2, 0], [3, 4, 0]] (p.drop 1),
    dims := { ndim := 3, order := [0, 2, 1], ndisplay := 2, point := [0, 0, 0],
              range := [(0, 1, 1), (0, 2, 1), (0, 3, 1)] },
    nDimensional := false, contiguous := false, brushSize := 10,
    selectedLabel := 1, selectedColor := none, coordinates := [0, 0, 0] }

/-- Counterexample to C6 as originally stated: on `labT` (displayed
order `[2, 1]`, square slice) the on-slice cell `[0, 0, 1]` ends at 3
(the transposed re-install) while the modified slice holds 2 at its
display projection; on `labT2` (unequal displayed extents) `fill`
raises `ValueError`. -/
theorem claim_C6_fill_slice_scope_counterexample :
    labT.nDimensional = false ∧ 2 < labT.shape.length ∧ onSliceB labT [0, 0, 1] = true ∧
      (fillOp labT [0, 0, 0] 1 5).1 [0, 0, 1] = 3 ∧
      fillDataFull (sliceShape labT) (dataLabels labT)
        ((displayedAxes labT.dims).map
          (fun d => (([0, 0, 0] : List ℚ).map npRound).getD d.toNat 0))
        1 5 labT.contiguous (dispProj labT [0, 0, 1]) = 2 ∧
      (fillOp labT [0, 0, 0] 1 5).1 [0, 0, 1] ≠
        fillDataFull (sliceShape labT) (dataLabels labT)
          ((displayedAxes labT.dims).map
            (fun d => (([0, 0, 0] : List ℚ).map npRound).getD d.toNat 0))
          1 5 labT.contiguous (dispProj labT [0, 0, 1]) ∧
      (fillOp labT2 [0, 0, 0] 1 5).2.isSome = true := by
  decide
